import Mathlib

/-
  Verification of the documentation-rewriting scripts in this repository
  (replace-hints.mjs, replace-embeds.mjs, remove-arcade-iframes.mjs,
  fix-images.mjs).

  Texts are modelled as `List Char`.  Each script applies a fixed set of
  JavaScript regular expressions with `String.replace`; for these specific
  patterns the ECMAScript matching semantics (leftmost match, greedy and
  lazy quantifiers with backtracking, multiline anchors where the `m` flag
  is set, case-insensitive literals where the `i` flag is set) is
  implemented below as deterministic scanners.  `String.replace` with a
  global regex scans positions left to right, replaces each match and
  resumes immediately after it; the scanners mirror that, tracking the
  "at start of a line" state needed by the `^` anchor.

  Model conventions:
  - `\s` is modelled by the ASCII whitespace characters (space, tab,
    newline, carriage return, vertical tab, form feed); the repository's
    markdown sources are ASCII-newline texts.
  - `\w` is [A-Za-z0-9_].
  - Case-insensitive literal matching lowers both sides with the ASCII
    lowering map.
  - The scripts set their `changed` flag exactly in the branches where they
    also increment a substitution counter, so `changed` is assembled as
    "some counter is nonzero".
-/

namespace Js

/-- The characters matched by the regex class backslash-s (ASCII range). -/
def isWS (c : Char) : Bool :=
  c == ' ' || c == '\t' || c == '\n' || c == '\r' || c == '\x0b' || c == '\x0c'

/-- The characters matched by the regex class backslash-w. -/
def isWordChar (c : Char) : Bool :=
  c.isAlpha || c.isDigit || c == '_'

/-- ASCII lowering, as used for the `i` regex flag and `toLowerCase`. -/
def lowerChar (c : Char) : Char := c.toLower

/-- Match a literal pattern at the head of the text; on success return the
remainder. -/
def matchStr : List Char → List Char → Option (List Char)
  | [], rest => some rest
  | _ :: _, [] => none
  | p :: ps, c :: t => if c = p then matchStr ps t else none

/-- Case-insensitive literal match (the pattern is given lowercased); on
success return the remainder. -/
def matchStrCI : List Char → List Char → Option (List Char)
  | [], rest => some rest
  | _ :: _, [] => none
  | p :: ps, c :: t => if lowerChar c = p then matchStrCI ps t else none

/-- JavaScript `String.prototype.trim`: drop whitespace on the left. -/
def trimL (cs : List Char) : List Char := cs.dropWhile isWS

/-- JavaScript `String.prototype.trim`: drop whitespace on the right. -/
def trimR (cs : List Char) : List Char := (cs.reverse.dropWhile isWS).reverse

/-- JavaScript `String.prototype.trim`. -/
def trim (cs : List Char) : List Char := trimR (trimL cs)

/-- `replaceAll` with a single-character needle: each occurrence of the
needle is replaced by `rep`. -/
def replaceAllChar (needle : Char) (rep : List Char) : List Char → List Char
  | [] => []
  | c :: t => (if c = needle then rep else [c]) ++ replaceAllChar needle rep t

/-- Substring test (JavaScript `String.prototype.includes`). -/
def containsSub (s pat : List Char) : Bool :=
  if pat.isPrefixOf s then true
  else
    match s with
    | [] => false
    | _ :: t => containsSub t pat

/-- Suffix test (JavaScript `String.prototype.endsWith`). -/
def endsWith (suffix s : List Char) : Bool :=
  suffix.reverse.isPrefixOf s.reverse

/-- First occurrence of a literal pattern: `some (before, after)` splits the
text around the first (case-sensitive) occurrence. -/
def findSub (pat : List Char) : List Char → Option (List Char × List Char)
  | [] => if pat.isEmpty then some ([], []) else none
  | c :: t =>
    if pat.isPrefixOf (c :: t) then some ([], (c :: t).drop pat.length)
    else
      match findSub pat t with
      | some (b, a) => some (c :: b, a)
      | none => none

/-- First occurrence of a lowercased literal pattern, case-insensitively. -/
def findSubCI (pat : List Char) : List Char → Option (List Char × List Char)
  | [] =>
    match matchStrCI pat [] with
    | some rest => some ([], rest)
    | none => none
  | c :: t =>
    match matchStrCI pat (c :: t) with
    | some rest => some ([], rest)
    | none =>
      match findSubCI pat t with
      | some (b, a) => some (c :: b, a)
      | none => none

/-- Split `ws = a ++ newline :: b` around the last newline of `ws`. -/
def findLastNl (ws : List Char) : Option (List Char × List Char) :=
  match ws.reverse.dropWhile (fun c => c ≠ '\n') with
  | '\n' :: revInit =>
    some (revInit.reverse, (ws.reverse.takeWhile (fun c => c ≠ '\n')).reverse)
  | _ => none

/-- The trailing part `\s*$` of a multiline regex, starting from the text
right after the previously matched piece: the greedy `\s*` consumes as much
whitespace as possible subject to `$` (end of text, or position just before
a newline) holding afterwards.  Returns `(consumed, rest)`. -/
def trailingWsEol (cs : List Char) : Option (List Char × List Char) :=
  if (cs.dropWhile isWS).isEmpty then some (cs.takeWhile isWS, [])
  else
    -- backtrack inside the whitespace run to the position before its last
    -- newline, the longest prefix after which `$` holds
    match findLastNl (cs.takeWhile isWS) with
    | some (a, b) => some (a, '\n' :: b ++ cs.dropWhile isWS)
    | none => none

end Js

namespace Hints

/-- Result record of `processContent` in replace-hints.mjs. -/
structure Result where
  text : List Char
  changed : Bool
  startCount : Nat
  endCount : Nat
deriving DecidableEq

/-- Matcher for the start-tag regex of replace-hints.mjs,
`(\s*)\x7b\%\s*hint\b[^%]*\%\x7d` (the `^` anchor is handled by the
scanner).  Returns `(indent, rest)` where `rest` is the text after the
match.  The greedy pieces here are deterministic: `\s*` cannot give back
characters (the following literal is not whitespace), and `[^%]*` must end
at the first `%`, which has to be followed by `\x7d`. -/
def tryHintStart (cs : List Char) : Option (List Char × List Char) :=
  let ws := cs.takeWhile Js.isWS
  match cs.dropWhile Js.isWS with
  | '\x7b' :: '%' :: r2 =>
    match Js.matchStr "hint".data (r2.dropWhile Js.isWS) with
    | some r4 =>
      if boundaryOk r4 then
        match r4.dropWhile (fun c => c ≠ '%') with
        | '%' :: '\x7d' :: r6 => some (ws, r6)
        | _ => none
      else none
    | none => none
  | _ => none
where
  /-- Word boundary after the literal `hint` (whose last char is a word
  character): the next char, if any, must be a non-word char. -/
  boundaryOk : List Char → Bool
    | [] => true
    | c :: _ => !Js.isWordChar c

/-- Matcher for the end-tag regex of replace-hints.mjs,
`(\s*)\x7b\%\s*endhint\s*\%\x7d`.  Returns `(indent, rest)`. -/
def tryHintEnd (cs : List Char) : Option (List Char × List Char) :=
  let ws := cs.takeWhile Js.isWS
  match cs.dropWhile Js.isWS with
  | '\x7b' :: '%' :: r2 =>
    match Js.matchStr "endhint".data (r2.dropWhile Js.isWS) with
    | some r4 =>
      match r4.dropWhile Js.isWS with
      | '%' :: '\x7d' :: r6 => some (ws, r6)
      | _ => none
    | none => none
  | _ => none

/-- The first substitution pass of replace-hints.mjs: replace every
line-anchored hint start tag by the indent followed by `<Note>`.  The
boolean argument records whether the current position is at the start of a
line; the fuel argument only forces structural recursion and is always
called with more fuel than there are characters (each step consumes at
least one).  Returns the new text and the number of replacements. -/
def startScan : Nat → Bool → List Char → List Char × Nat
  | 0, _, cs => (cs, 0)
  | _ + 1, _, [] => ([], 0)
  | fuel + 1, lineStart, c :: t =>
    if lineStart then
      match tryHintStart (c :: t) with
      | some (ind, rest) =>
        let (out, n) := startScan fuel false rest
        (ind ++ "<Note>".data ++ out, n + 1)
      | none =>
        let (out, n) := startScan fuel (c = '\n') t
        (c :: out, n)
    else
      let (out, n) := startScan fuel (c = '\n') t
      (c :: out, n)

/-- The second substitution pass of replace-hints.mjs: replace every
line-anchored end-hint tag by the indent followed by `</Note>`. -/
def endScan : Nat → Bool → List Char → List Char × Nat
  | 0, _, cs => (cs, 0)
  | _ + 1, _, [] => ([], 0)
  | fuel + 1, lineStart, c :: t =>
    if lineStart then
      match tryHintEnd (c :: t) with
      | some (ind, rest) =>
        let (out, n) := endScan fuel false rest
        (ind ++ "</Note>".data ++ out, n + 1)
      | none =>
        let (out, n) := endScan fuel (c = '\n') t
        (c :: out, n)
    else
      let (out, n) := endScan fuel (c = '\n') t
      (c :: out, n)

/-- `processContent` of replace-hints.mjs. -/
def processContent (text : List Char) : Result :=
  let (t1, n1) := startScan (text.length + 1) true text
  let (t2, n2) := endScan (t1.length + 1) true t1
  { text := t2, changed := !(n1 == 0 && n2 == 0), startCount := n1, endCount := n2 }

end Hints

namespace Images

/-- Result record of `processFileContent` in fix-images.mjs. -/
structure Result where
  content : List Char
  changed : Bool
  figureUnwrapped : Nat
  imgsNormalized : Nat
deriving DecidableEq

/-- `htmlEntityEscape` of fix-images.mjs: four chained `replaceAll` calls,
escaping ampersand, double quote, less-than and greater-than, in that
order. -/
def htmlEntityEscape (text : List Char) : List Char :=
  Js.replaceAllChar '>' "&gt;".data
    (Js.replaceAllChar '<' "&lt;".data
      (Js.replaceAllChar '"' "&quot;".data
        (Js.replaceAllChar '&' "&amp;".data text)))

/-- `stripHtmlTags` of fix-images.mjs: `replace(/<[^>]*>/g, '')`.  At a
`<` the class `[^>]*` runs to the first `>`; without a closing `>` there is
no match and the scan advances one character. -/
def stripTags : Nat → List Char → List Char
  | 0, cs => cs
  | _ + 1, [] => []
  | fuel + 1, '<' :: t =>
    match t.dropWhile (fun c => c ≠ '>') with
    | '>' :: r => stripTags fuel r
    | _ => '<' :: stripTags fuel t
  | fuel + 1, c :: t => c :: stripTags fuel t

/-- The tail `\/?\s*>$` of the img-tag anchored regex in
`normalizeImgTag`: an optional slash, whitespace, a closing `>` and the end
of the string. -/
def tagTailOk (rest : List Char) : Bool :=
  (match rest with
   | '/' :: r => r.dropWhile Js.isWS == ['>']
   | _ => false)
  || (rest.dropWhile Js.isWS == ['>'])

/-- The lazy capture `([\s\S]*?)` of the img-tag anchored regex: the
shortest prefix of the text whose remainder matches `\/?\s*>$`. -/
def capSearch (acc rest : List Char) : Option (List Char) :=
  if tagTailOk rest then some acc.reverse
  else
    match rest with
    | [] => none
    | c :: t => capSearch (c :: acc) t

/-- The anchored attribute extraction of `normalizeImgTag`:
`imgTag.match(/^<img\b([\s\S]*?)\/?\s*>$/i)`, returning the capture. -/
def tryTagMatch (imgTag : List Char) : Option (List Char) :=
  match Js.matchStrCI "<img".data imgTag with
  | some r =>
    match r with
    | [] => none
    | c :: _ => if Js.isWordChar c then none else capSearch [] r
  | none => none

/-- Fallback of the attribute extraction: `replace(/^<img\b/i, '')`. -/
def stripImgOpen (cs : List Char) : List Char :=
  match Js.matchStrCI "<img".data cs with
  | some r =>
    match r with
    | [] => r
    | c :: _ => if Js.isWordChar c then cs else r
  | none => cs

/-- Fallback of the attribute extraction: `replace(/>\s*$/, '')` (no `m`
flag, so `$` is the true end of the string; the first and only possible
match is a `>` followed by nothing but whitespace). -/
def stripGtEnd : List Char → List Char
  | [] => []
  | '>' :: t => if t.all Js.isWS then [] else '>' :: stripGtEnd t
  | c :: t => c :: stripGtEnd t

/-- `attrStringOriginal` of `normalizeImgTag`: the regex capture when the
anchored tag regex matches, otherwise the fallback double replace. -/
def attrStringOf (imgTag : List Char) : List Char :=
  match tryTagMatch imgTag with
  | some attr => attr
  | none => stripGtEnd (stripImgOpen imgTag)

/-- The quoted value `"[\s\S]*?"` (or single-quoted): lazily up to the
first closing quote.  Returns `(inner, rest-after-closing-quote)`. -/
def splitAtQuote (q : Char) (cs : List Char) : Option (List Char × List Char) :=
  match cs.dropWhile (fun c => c ≠ q) with
  | _ :: rest => some (cs.takeWhile (fun c => c ≠ q), rest)
  | [] => none

/-- One attempt of the alt-attribute regex
`\salt\s*=\s*("[\s\S]*?"|\x27[\s\S]*?\x27)` of `normalizeImgTag` at the
current position (case-sensitive).  Returns `(value-inside-quotes, rest)`. -/
def tryAltAttr (cs : List Char) : Option (List Char × List Char) :=
  match cs with
  | c :: t =>
    if Js.isWS c then
      match Js.matchStr "alt".data t with
      | some r1 =>
        match r1.dropWhile Js.isWS with
        | '=' :: r3 =>
          match r3.dropWhile Js.isWS with
          | '"' :: r5 => splitAtQuote '"' r5
          | '\x27' :: r5 => splitAtQuote '\x27' r5
          | _ => none
        | _ => none
      | none => none
    else none
  | [] => none

/-- The global scan of the alt-attribute regex over the attribute string:
collects the raw quoted values in order and also yields the text with all
matches removed (the collection loop and the `replace(altAttrRegex, '')`
call in the source traverse the same matches). -/
def altScan : Nat → List Char → List (List Char) × List Char
  | 0, cs => ([], cs)
  | _ + 1, [] => ([], [])
  | fuel + 1, c :: t =>
    match tryAltAttr (c :: t) with
    | some (v, rest) =>
      let (vs, out) := altScan fuel rest
      (v :: vs, out)
    | none =>
      let (vs, out) := altScan fuel t
      (vs, c :: out)

/-- One attempt of `\s*\/\s*(?=>|$)` (strip stray self-closing slashes) at
the current position; the lookahead is not consumed.  Returns the rest of
the text after the consumed part. -/
def trySlashStrip (cs : List Char) : Option (List Char) :=
  match cs.dropWhile Js.isWS with
  | '/' :: r2 =>
    match r2.dropWhile Js.isWS with
    | [] => some []
    | '>' :: r4 => some ('>' :: r4)
    | _ => none
  | _ => none

/-- The global scan of the slash-strip regex (matches replaced by the
empty string). -/
def slashScan : Nat → List Char → List Char
  | 0, cs => cs
  | _ + 1, [] => []
  | fuel + 1, c :: t =>
    match trySlashStrip (c :: t) with
    | some rest => slashScan fuel rest
    | none => c :: slashScan fuel t

/-- The global scan of `\s{2,}` replaced by a single space: a whitespace
run of length at least two collapses to one space. -/
def collapseScan : Nat → List Char → List Char
  | 0, cs => cs
  | _ + 1, [] => []
  | fuel + 1, c :: t =>
    if Js.isWS c then
      if (match t with | c2 :: _ => Js.isWS c2 | [] => false) then
        ' ' :: collapseScan fuel (t.dropWhile Js.isWS)
      else c :: collapseScan fuel t
    else c :: collapseScan fuel t

/-- Lowercasing used by the case-insensitive `includes` comparison. -/
def lowerList (cs : List Char) : List Char := cs.map Js.lowerChar

/-- The chosen-alt computation of `normalizeImgTag` (source lines 68-75):
start from the first collected alt (or empty), and when a fallback with
nonempty trim is supplied, adopt it if no alt was chosen, or append it
(space-separated, then trimmed) unless the chosen alt already contains it
case-insensitively. -/
def chooseAlt (alts : List (List Char)) (fallbackAlt : List Char) : List Char :=
  let chosen := match alts with | [] => [] | a :: _ => a
  if !fallbackAlt.isEmpty && !(Js.trim fallbackAlt).isEmpty then
    if chosen.isEmpty then Js.trim fallbackAlt
    else if !(Js.containsSub (lowerList chosen) (lowerList (Js.trim fallbackAlt))) then
      Js.trim (chosen ++ ' ' :: Js.trim fallbackAlt)
    else chosen
  else chosen

/-- `normalizeImgTag` of fix-images.mjs. -/
def normalizeImgTag (imgTag : List Char) (fallbackAlt : List Char) : List Char :=
  let attrOrig := attrStringOf imgTag
  let scanned := altScan (attrOrig.length + 1) attrOrig
  let alts := scanned.1.filterMap (fun v =>
    let w := Js.trim v
    if w.isEmpty then none else some w)
  let chosenAlt := chooseAlt alts fallbackAlt
  let a1 := slashScan (scanned.2.length + 1) scanned.2
  let attrString := Js.trim (collapseScan (a1.length + 1) a1)
  let attrsPart := if attrString.isEmpty then [] else ' ' :: attrString
  "<img".data ++ attrsPart ++ " alt=\"".data ++ htmlEntityEscape chosenAlt
    ++ '"' :: ' ' :: '/' :: '>' :: []

/-- One attempt of `<img\b[\s\S]*?>` (`i` flag) at the current position:
the lazy body runs to the first `>`.  Returns `(matched tag, rest)`. -/
def tryImgAt (cs : List Char) : Option (List Char × List Char) :=
  match Js.matchStrCI "<img".data cs with
  | some r =>
    if (match r with | c :: _ => !Js.isWordChar c | [] => true) then
      match r.dropWhile (fun c => c ≠ '>') with
      | '>' :: rest =>
        some (cs.take 4 ++ r.takeWhile (fun c => c ≠ '>') ++ ['>'], rest)
      | _ => none
    else none
  | none => none

/-- `inner.match(/<img\b[\s\S]*?>/i)`: the first img tag in the text. -/
def findImgTag : List Char → Option (List Char)
  | [] => none
  | c :: t =>
    match tryImgAt (c :: t) with
    | some (tag, _) => some tag
    | none => findImgTag t

/-- One attempt of `<figcaption\b[^>]*>([\s\S]*?)<\/figcaption>` (`i`
flag) at the current position; returns the capture. -/
def tryFigcaptionAt (cs : List Char) : Option (List Char) :=
  match Js.matchStrCI "<figcaption".data cs with
  | some r =>
    if (match r with | c :: _ => !Js.isWordChar c | [] => true) then
      match r.dropWhile (fun c => c ≠ '>') with
      | '>' :: r2 =>
        match Js.findSubCI "</figcaption>".data r2 with
        | some (cap, _) => some cap
        | none => none
      | _ => none
    else none
  | none => none

/-- `inner.match(captionRegex)`: the first figcaption in the text. -/
def findFigcaption : List Char → Option (List Char)
  | [] => none
  | c :: t =>
    match tryFigcaptionAt (c :: t) with
    | some cap => some cap
    | none => findFigcaption t

/-- One attempt of `<figure\b[^>]*>([\s\S]*?)<\/figure>` (case-sensitive)
at the current position.  Returns `(full match, inner capture, rest)`. -/
def tryFigure (cs : List Char) : Option (List Char × List Char × List Char) :=
  match Js.matchStr "<figure".data cs with
  | some r =>
    if (match r with | c :: _ => !Js.isWordChar c | [] => true) then
      match r.dropWhile (fun c => c ≠ '>') with
      | '>' :: r2 =>
        match Js.findSub "</figure>".data r2 with
        | some (inner, rest) =>
          some ("<figure".data ++ r.takeWhile (fun c => c ≠ '>') ++ '>' :: inner
            ++ "</figure>".data, inner, rest)
        | none => none
      | _ => none
    else none
  | none => none

/-- The figure-unwrapping pass of `processFileContent`: each figure block
containing an img tag is replaced by the normalized img tag (with the
figcaption text, stripped of HTML tags and trimmed, as fallback alt);
figure blocks without an img are left as they are.  The leading-whitespace
capture of the full match is always empty since the match starts at `<`,
and is modelled faithfully as `full.takeWhile isWS`. -/
def figScan : Nat → List Char → List Char × Nat
  | 0, cs => (cs, 0)
  | _ + 1, [] => ([], 0)
  | fuel + 1, c :: t =>
    match tryFigure (c :: t) with
    | some (full, inner, rest) =>
      let (out, n) := figScan fuel rest
      match findImgTag inner with
      | some imgTag =>
        let caption :=
          match findFigcaption inner with
          | some capInner => Js.trim (stripTags (capInner.length + 1) capInner)
          | none => []
        (full.takeWhile Js.isWS ++ normalizeImgTag imgTag caption ++ out, n + 1)
      | none => (full ++ out, n)
    | none =>
      let (out, n) := figScan fuel t
      (c :: out, n)

/-- The standalone img-normalization pass of `processFileContent`: every
img tag is replaced by its normalization with empty fallback alt; the
counter increments only when the replacement differs from the original. -/
def imgScan : Nat → List Char → List Char × Nat
  | 0, cs => (cs, 0)
  | _ + 1, [] => ([], 0)
  | fuel + 1, c :: t =>
    match tryImgAt (c :: t) with
    | some (tag, rest) =>
      let (out, n) := imgScan fuel rest
      let norm := normalizeImgTag tag []
      if norm = tag then (norm ++ out, n) else (norm ++ out, n + 1)
    | none =>
      let (out, n) := imgScan fuel t
      (c :: out, n)

/-- `processFileContent` of fix-images.mjs. -/
def processFileContent (content : List Char) : Result :=
  let (c1, figs) := figScan (content.length + 1) content
  let (c2, imgs) := imgScan (c1.length + 1) c1
  { content := c2, changed := !(figs == 0 && imgs == 0),
    figureUnwrapped := figs, imgsNormalized := imgs }

end Images

namespace Embeds

/-- Result record of `processContent` in replace-embeds.mjs. -/
structure Result where
  text : List Char
  changed : Bool
  blocks : Nat
  singles : Nat
deriving DecidableEq

/-- `htmlEscapeAttribute` of replace-embeds.mjs: the same four chained
`replaceAll` calls as in fix-images.mjs (the `String(value || '')`
coercion is the identity on the strings passed here). -/
def htmlEscapeAttribute (value : List Char) : List Char :=
  Js.replaceAllChar '>' "&gt;".data
    (Js.replaceAllChar '<' "&lt;".data
      (Js.replaceAllChar '"' "&quot;".data
        (Js.replaceAllChar '&' "&amp;".data value)))

/-- One attempt of the attribute regex
`(\w+)\s*=\s*("([\s\S]*?)"|\x27([\s\S]*?)\x27)` of `parseEmbedAttrs` at
the current position.  The quoted value uses the same lazy shape as the
alt values in fix-images, so `Images.splitAtQuote` is reused.  The value
is trimmed as in the source.  Returns `((key, value), rest)`. -/
def tryAttrPair (cs : List Char) : Option ((List Char × List Char) × List Char) :=
  match cs with
  | c :: _ =>
    if Js.isWordChar c then
      match (cs.dropWhile Js.isWordChar).dropWhile Js.isWS with
      | '=' :: r2 =>
        match r2.dropWhile Js.isWS with
        | '"' :: r4 =>
          match Images.splitAtQuote '"' r4 with
          | some (v, rest) => some ((cs.takeWhile Js.isWordChar, Js.trim v), rest)
          | none => none
        | '\x27' :: r4 =>
          match Images.splitAtQuote '\x27' r4 with
          | some (v, rest) => some ((cs.takeWhile Js.isWordChar, Js.trim v), rest)
          | none => none
        | _ => none
      | _ => none
    else none
  | [] => none

/-- The global scan of `parseEmbedAttrs`: all key/value pairs in order. -/
def attrsScan : Nat → List Char → List (List Char × List Char)
  | 0, _ => []
  | _ + 1, [] => []
  | fuel + 1, c :: t =>
    match tryAttrPair (c :: t) with
    | some (kv, rest) => kv :: attrsScan fuel rest
    | none => attrsScan fuel t

/-- Lookup in the parsed attribute object: assignment in source order, so
the last occurrence of a duplicate key wins; a missing key and an empty
value are both represented by the empty string (the source only ever
branches on their falsiness). -/
def lookupLast (key : List Char) (pairs : List (List Char × List Char)) : List Char :=
  pairs.foldl (fun acc p => if p.1 = key then p.2 else acc) []

/-- `parseEmbedAttrs` of replace-embeds.mjs, composed with the lookup. -/
def parseEmbedAttrs (attrText : List Char) : List (List Char × List Char) :=
  attrsScan (attrText.length + 1) attrText

/-- `buildIframe` of replace-embeds.mjs. -/
def buildIframe (url titleFallback indent : List Char) : List Char :=
  let title := if titleFallback.isEmpty then "Embedded content".data else titleFallback
  let src := Js.trim url
  indent ++ "<iframe className=\"w-full aspect-video rounded-xl\" src=\"".data
    ++ htmlEscapeAttribute src
    ++ "\" title=\"".data
    ++ htmlEscapeAttribute title
    ++ "\" frameBorder=\"0\" allow=\"accelerometer; autoplay; clipboard-write; encrypted-media; gyroscope; picture-in-picture\" allowFullScreen></iframe>".data

/-- The shared head `(\s*)\x7b\%\s*embed\b([^%]*)\%\x7d` of the two embed
regexes (`i` flag: the literal `embed` matches case-insensitively).
Returns `(indent, attrText, matched-head-text, rest)`. -/
def tryEmbedHead (cs : List Char) :
    Option (List Char × List Char × List Char × List Char) :=
  match cs.dropWhile Js.isWS with
  | '\x7b' :: '%' :: r2 =>
    match Js.matchStrCI "embed".data (r2.dropWhile Js.isWS) with
    | some r3 =>
      if (match r3 with | c :: _ => !Js.isWordChar c | [] => true) then
        match r3.dropWhile (fun c => c ≠ '%') with
        | '%' :: '\x7d' :: r5 =>
          some (cs.takeWhile Js.isWS, r3.takeWhile (fun c => c ≠ '%'),
            cs.takeWhile Js.isWS ++ '\x7b' :: '%' ::
              (r2.takeWhile Js.isWS ++ ((r2.dropWhile Js.isWS).take 5
                ++ (r3.takeWhile (fun c => c ≠ '%') ++ '%' :: '\x7d' :: []))), r5)
        | _ => none
      else none
    | none => none
  | _ => none

/-- The end marker `(\s*)\x7b\%\s*endembed\s*\%\x7d` (`i` flag).
Returns `(matched-end-text, rest)`. -/
def tryEndEmbed (cs : List Char) : Option (List Char × List Char) :=
  match cs.dropWhile Js.isWS with
  | '\x7b' :: '%' :: r2 =>
    match Js.matchStrCI "endembed".data (r2.dropWhile Js.isWS) with
    | some r3 =>
      match r3.dropWhile Js.isWS with
      | '%' :: '\x7d' :: r5 =>
        some (cs.takeWhile Js.isWS ++ '\x7b' :: '%' ::
          (r2.takeWhile Js.isWS ++ ((r2.dropWhile Js.isWS).take 8
            ++ (r3.takeWhile Js.isWS ++ '%' :: '\x7d' :: []))), r5)
      | _ => none
    | none => none
  | _ => none

/-- The lazy inner capture `([\s\S]*?)` of the block regex followed by the
line-anchored end marker: the earliest position, at the start of a line,
where the end marker matches.  The boolean records whether the current
position is at a line start.  Returns `(inner, end-marker-text, rest)`. -/
def findEndEmbed : Bool → List Char → Option (List Char × List Char × List Char)
  | _, [] => none
  | true, c :: t =>
    match tryEndEmbed (c :: t) with
    | some (endFull, rest) => some ([], endFull, rest)
    | none =>
      match findEndEmbed (c = '\n') t with
      | some (inner, endFull, rest) => some (c :: inner, endFull, rest)
      | none => none
  | false, c :: t =>
    match findEndEmbed (c = '\n') t with
    | some (inner, endFull, rest) => some (c :: inner, endFull, rest)
    | none => none

/-- A match of the block regex
`^(\s*)\x7b\%\s*embed\b([^%]*)\%\x7d([\s\S]*?)^(\s*)\x7b\%\s*endembed\s*\%\x7d`. -/
structure BlockMatch where
  indent : List Char
  attr : List Char
  inner : List Char
  full : List Char
  rest : List Char

/-- One attempt of the block regex at a line-anchored position. -/
def tryBlock (cs : List Char) : Option BlockMatch :=
  match tryEmbedHead cs with
  | some (ind, attr, headFull, r5) =>
    match findEndEmbed false r5 with
    | some (inner, endFull, rest) =>
      some ⟨ind, attr, inner, headFull ++ inner ++ endFull, rest⟩
    | none => none
  | none => none

/-- The caption used when a block is replaced: the trimmed `caption`
attribute when its trim is nonempty, else the inner content with leading
and trailing whitespace runs removed (`replace(/^[\n\r\s]+|[\n\r\s]+$/g,
'')`, which strips exactly the two whitespace ends) and then trimmed. -/
def blockCaption (attrs : List (List Char × List Char)) (inner : List Char) :
    List Char :=
  let cap := lookupLast "caption".data attrs
  if !cap.isEmpty && !(Js.trim cap).isEmpty then Js.trim cap
  else Js.trim (Js.trimR (Js.trimL inner))

/-- The first substitution pass of `processContent`: replace every block
match whose attributes contain a nonempty `url` by the built iframe line;
block matches without a `url` are re-emitted unchanged and not counted. -/
def blockScan : Nat → Bool → List Char → List Char × Nat
  | 0, _, cs => (cs, 0)
  | _ + 1, _, [] => ([], 0)
  | fuel + 1, lineStart, c :: t =>
    if lineStart then
      match tryBlock (c :: t) with
      | some m =>
        let (out, n) := blockScan fuel false m.rest
        let attrs := parseEmbedAttrs m.attr
        let url := lookupLast "url".data attrs
        if url.isEmpty then (m.full ++ out, n)
        else (buildIframe url (blockCaption attrs m.inner) m.indent ++ out, n + 1)
      | none =>
        let (out, n) := blockScan fuel (c = '\n') t
        (c :: out, n)
    else
      let (out, n) := blockScan fuel (c = '\n') t
      (c :: out, n)

/-- A match of the standalone regex
`^(\s*)\x7b\%\s*embed\b([^%]*)\%\x7d\s*$`. -/
structure SingleMatch where
  indent : List Char
  attr : List Char
  full : List Char
  rest : List Char

/-- One attempt of the standalone regex at a line-anchored position. -/
def trySingle (cs : List Char) : Option SingleMatch :=
  match tryEmbedHead cs with
  | some (ind, attr, headFull, r5) =>
    match Js.trailingWsEol r5 with
    | some (wsConsumed, rest) => some ⟨ind, attr, headFull ++ wsConsumed, rest⟩
    | none => none
  | none => none

/-- The caption used when a standalone match is replaced: the trimmed
`caption` attribute when its trim is nonempty, else the empty string. -/
def singleCaption (attrs : List (List Char × List Char)) : List Char :=
  let cap := lookupLast "caption".data attrs
  if !cap.isEmpty && !(Js.trim cap).isEmpty then Js.trim cap else []

/-- The second substitution pass of `processContent`: replace every
standalone match whose attributes contain a nonempty `url`. -/
def singleScan : Nat → Bool → List Char → List Char × Nat
  | 0, _, cs => (cs, 0)
  | _ + 1, _, [] => ([], 0)
  | fuel + 1, lineStart, c :: t =>
    if lineStart then
      match trySingle (c :: t) with
      | some m =>
        let (out, n) := singleScan fuel false m.rest
        let attrs := parseEmbedAttrs m.attr
        let url := lookupLast "url".data attrs
        if url.isEmpty then (m.full ++ out, n)
        else (buildIframe url (singleCaption attrs) m.indent ++ out, n + 1)
      | none =>
        let (out, n) := singleScan fuel (c = '\n') t
        (c :: out, n)
    else
      let (out, n) := singleScan fuel (c = '\n') t
      (c :: out, n)

/-- `processContent` of replace-embeds.mjs: the block pass, then the
standalone pass on its output. -/
def processContent (text : List Char) : Result :=
  let (t1, b) := blockScan (text.length + 1) true text
  let (t2, s) := singleScan (t1.length + 1) true t1
  { text := t2, changed := !(b == 0 && s == 0), blocks := b, singles := s }

end Embeds

namespace Arcade

/-- Result record of `processContent` in remove-arcade-iframes.mjs. -/
structure Result where
  text : List Char
  changed : Bool
  replaced : Nat
deriving DecidableEq

/-- The lazy tail `[\s\S]*?<\/iframe>\s*$` of the arcade iframe regex
(`i` and `m` flags): extend to successive occurrences of the literal
`</iframe>` until the `\s*$` condition after one of them holds.  The
literal cannot overlap itself (none of its later characters is `<`), so
continuing the search after a failed occurrence is faithful.  Returns the
text after the whole tail. -/
def tailLoop : List Char → Option (List Char)
  | [] => none
  | c :: t =>
    match Js.matchStrCI "</iframe>".data (c :: t) with
    | some after =>
      match Js.trailingWsEol after with
      | some (_, rest) => some rest
      | none => tailLoop t
    | none => tailLoop t

/-- The scheme-and-host part `https?:\/\/app\.arcade\.software\/` of the
captured url (`i` flag).  The optional `s` is deterministic: when the next
character is an `s` the greedy option must take it (a literal `:` cannot
match `s`), otherwise it matches nothing.  Returns the consumed original
characters and the rest. -/
def urlHead (cs : List Char) : Option (List Char × List Char) :=
  match Js.matchStrCI "http".data cs with
  | some r1 =>
    match r1 with
    | c :: t =>
      if Js.lowerChar c = 's' then
        match Js.matchStrCI "://app.arcade.software/".data t with
        | some r2 => some (cs.take 28, r2)
        | none => none
      else
        match Js.matchStrCI "://app.arcade.software/".data r1 with
        | some r2 => some (cs.take 27, r2)
        | none => none
    | [] => none
  | none => none

/-- The greedy capture `[^"]+` followed by the closing `["']` and the lazy
tail: capture lengths are tried longest first (never crossing a double
quote, at least one character), the character right after the capture must
be one of the two quotes, and on failure of the rest the capture
backtracks.  `j+1` is the capture length currently attempted.  Returns
`(captured text, rest-after-the-whole-match)`. -/
def capLoop (r3 : List Char) : Nat → Option (List Char × List Char)
  | 0 => none
  | j + 1 =>
    match r3.drop (j + 1) with
    | c :: t =>
      if c = '"' || c = '\x27' then
        match tailLoop t with
        | some rest => some (r3.take (j + 1), rest)
        | none => capLoop r3 j
      else capLoop r3 j
    | [] => capLoop r3 j

/-- The piece `\ssrc=["']` followed by the url capture, attempted with the
text starting at the whitespace character: a whitespace, the literal
`src=` (`i` flag), an opening quote, the arcade url head, then the greedy
capture and tail.  Returns `(captured url, rest)`. -/
def tryFromSrc (rem : List Char) : Option (List Char × List Char) :=
  match rem with
  | c :: t =>
    if Js.isWS c then
      match Js.matchStrCI "src=".data t with
      | some r1 =>
        match r1 with
        | q :: r2 =>
          if q = '"' || q = '\x27' then
            match urlHead r2 with
            | some (urlPre, r3) =>
              match capLoop r3 (r3.takeWhile (fun c => c ≠ '"')).length with
              | some (cap, rest) => some (urlPre ++ cap, rest)
              | none => none
            | none => none
          else none
        | [] => none
      | none => none
    else none
  | [] => none

/-- The greedy `[^>]*` before `\ssrc=`: lengths are tried longest first
(bounded by the first `>`), with full backtracking into the rest of the
pattern.  `k` is the length currently attempted. -/
def kLoop (r : List Char) : Nat → Option (List Char × List Char)
  | 0 => tryFromSrc r
  | k + 1 =>
    match tryFromSrc (r.drop (k + 1)) with
    | some x => some x
    | none => kLoop r k

/-- One attempt of the whole arcade iframe regex
`^(\s*)<iframe\b[^>]*\ssrc=["'](https?:\/\/app\.arcade\.software\/[^"]+)["'][\s\S]*?<\/iframe>\s*$`
at a line-anchored position (`gmi` flags).  Returns
`(indent, captured url, rest)`. -/
def tryArcade (cs : List Char) : Option (List Char × List Char × List Char) :=
  match Js.matchStrCI "<iframe".data (cs.dropWhile Js.isWS) with
  | some r =>
    if (match r with | c :: _ => !Js.isWordChar c | [] => true) then
      match kLoop r (r.takeWhile (fun c => c ≠ '>')).length with
      | some (url, rest) => some (cs.takeWhile Js.isWS, url, rest)
      | none => none
    else none
  | none => none

/-- The substitution pass of remove-arcade-iframes.mjs: each match is
replaced by its indent followed by the bare captured url. -/
def arcadeScan : Nat → Bool → List Char → List Char × Nat
  | 0, _, cs => (cs, 0)
  | _ + 1, _, [] => ([], 0)
  | fuel + 1, lineStart, c :: t =>
    if lineStart then
      match tryArcade (c :: t) with
      | some (ind, url, rest) =>
        let (out, n) := arcadeScan fuel false rest
        (ind ++ url ++ out, n + 1)
      | none =>
        let (out, n) := arcadeScan fuel (c = '\n') t
        (c :: out, n)
    else
      let (out, n) := arcadeScan fuel (c = '\n') t
      (c :: out, n)

/-- `processContent` of remove-arcade-iframes.mjs. -/
def processContent (text : List Char) : Result :=
  let (t, n) := arcadeScan (text.length + 1) true text
  { text := t, changed := !(n == 0), replaced := n }

end Arcade

namespace Collector

/-- A directory tree as seen by the recursive `collectFiles` function that
all four scripts share verbatim (fs.readdirSync with file types): an entry
is a file or a directory with its entries in listing order. -/
inductive FSEntry where
  | file : List Char → FSEntry
  | dir : List Char → List FSEntry → FSEntry

/-- `entry.name.startsWith(".")`. -/
def startsWithDot : List Char → Bool
  | '.' :: _ => true
  | _ => false

/-- `name.toLowerCase().endsWith(ext)` of the extension filter. -/
def extMatches (exts : List (List Char)) (name : List Char) : Bool :=
  exts.any (fun e => Js.endsWith e (name.map Js.lowerChar))

mutual
/-- One loop iteration of `collectFiles`: dot-prefixed entries are skipped
entirely, directories are recursed into, files are collected when their
lowercased name ends with one of the extensions.  Paths are the component
lists accumulated from the traversal root. -/
def collectEntry (exts : List (List Char)) (path : List (List Char)) :
    FSEntry → List (List (List Char))
  | .file name =>
    if startsWithDot name then []
    else if extMatches exts name then [path ++ [name]] else []
  | .dir name children =>
    if startsWithDot name then []
    else collectList exts (path ++ [name]) children

/-- `collectFiles` over the entries of one directory, in listing order,
with the accumulator modelled by list concatenation. -/
def collectList (exts : List (List Char)) (path : List (List Char)) :
    List FSEntry → List (List (List Char))
  | [] => []
  | e :: rest => collectEntry exts path e ++ collectList exts path rest
end

end Collector

namespace Spec

/-- Modelled from the claim wording: the per-character entity map
(ampersand, double quote, less-than, greater-than escaped, all other
characters kept). -/
def escChar (c : Char) : List Char :=
  if c = '&' then "&amp;".data
  else if c = '"' then "&quot;".data
  else if c = '<' then "&lt;".data
  else if c = '>' then "&gt;".data
  else [c]

/-- Escaping a value by applying the per-character entity map once to
every character. -/
def escape : List Char → List Char
  | [] => []
  | c :: t => escChar c ++ escape t

/-- Modelled from the claim wording for image normalization: the chosen
alt is the first non-empty trimmed alt value in order of appearance; when
a fallback with non-empty text (its trim) is supplied and no alt was
found, the fallback text becomes the alt; when an alt was found that does
not contain the fallback text as a case-insensitive substring, the
fallback text is appended to the chosen alt, separated by a space. -/
def chosenAlt (rawValues : List (List Char)) (fallback : List Char) : List Char :=
  match ((rawValues.map Js.trim).filter (fun w => !w.isEmpty)).head?,
      (if (Js.trim fallback).isEmpty then none else some (Js.trim fallback)) with
  | none, none => []
  | none, some fb => fb
  | some a, none => a
  | some a, some fb =>
    if Js.containsSub (Images.lowerList a) (Images.lowerList fb) then a
    else a ++ ' ' :: fb

/-- `Images.normalizeImgTag` with its chosen-alt computation replaced by
the claim-side rule `Spec.chosenAlt`, everything else unchanged. -/
def normalizeImgTagAlt (imgTag : List Char) (fallbackAlt : List Char) : List Char :=
  let attrOrig := Images.attrStringOf imgTag
  let scanned := Images.altScan (attrOrig.length + 1) attrOrig
  let chosen := chosenAlt scanned.1 fallbackAlt
  let a1 := Images.slashScan (scanned.2.length + 1) scanned.2
  let attrString := Js.trim (Images.collapseScan (a1.length + 1) a1)
  let attrsPart := if attrString.isEmpty then [] else ' ' :: attrString
  "<img".data ++ attrsPart ++ " alt=\"".data ++ Images.htmlEntityEscape chosen
    ++ '"' :: ' ' :: '/' :: '>' :: []

end Spec


set_option maxRecDepth 100000

theorem matchStr_eq_append {pat cs r : List Char}
    (h : Js.matchStr pat cs = some r) : cs = pat ++ r := by
  induction pat generalizing cs with
  | nil => simp [Js.matchStr] at h; simp [h]
  | cons p ps ih =>
    cases cs with
    | nil => exact absurd h (by simp [Js.matchStr])
    | cons c t =>
      by_cases hc : c = p
      · simp only [Js.matchStr, if_pos hc] at h
        simp [hc, ih h]
      · simp [Js.matchStr, if_neg hc] at h

theorem matchStr_length {pat cs r : List Char}
    (h : Js.matchStr pat cs = some r) : cs.length = pat.length + r.length := by
  rw [matchStr_eq_append h]; simp

theorem matchStrCI_length {pat cs r : List Char}
    (h : Js.matchStrCI pat cs = some r) : cs.length = pat.length + r.length := by
  induction pat generalizing cs with
  | nil => simp [Js.matchStrCI] at h; simp [← h]
  | cons p ps ih =>
    cases cs with
    | nil => exact absurd h (by simp [Js.matchStrCI])
    | cons c t =>
      by_cases hc : Js.lowerChar c = p
      · simp only [Js.matchStrCI, if_pos hc] at h
        have := ih h
        simp [this]
        omega
      · simp [Js.matchStrCI, if_neg hc] at h

theorem length_dropWhile_le (p : Char → Bool) (cs : List Char) :
    (cs.dropWhile p).length ≤ cs.length :=
  (List.dropWhile_sublist p).length_le

theorem tryHintStart_length {cs ind rest : List Char}
    (h : Hints.tryHintStart cs = some (ind, rest)) : rest.length < cs.length := by
  unfold Hints.tryHintStart at h
  split at h
  next r2 heq1 =>
    split at h
    next r4 heq2 =>
      split at h
      next =>
        split at h
        next r6 heq3 =>
          injection h with h'
          injection h' with h1 h2
          subst h2
          have l1 : r2.length + 2 ≤ cs.length := by
            have := length_dropWhile_le Js.isWS cs
            rw [heq1] at this; simpa using this
          have l2 : r4.length + 4 ≤ r2.length := by
            have := matchStr_length heq2
            have h4 := length_dropWhile_le Js.isWS r2
            simp [this] at h4
            omega
          have l3 : r6.length + 2 ≤ r4.length := by
            have := length_dropWhile_le (fun c => decide (c ≠ '%')) r4
            rw [heq3] at this; simpa using this
          omega
        next => exact absurd h (by simp)
      next => exact absurd h (by simp)
    next => exact absurd h (by simp)
  next => exact absurd h (by simp)

theorem tryHintEnd_length {cs ind rest : List Char}
    (h : Hints.tryHintEnd cs = some (ind, rest)) : rest.length < cs.length := by
  unfold Hints.tryHintEnd at h
  split at h
  next r2 heq1 =>
    split at h
    next r4 heq2 =>
      split at h
      next r6 heq3 =>
        injection h with h'
        injection h' with h1 h2
        subst h2
        have l1 : r2.length + 2 ≤ cs.length := by
          have := length_dropWhile_le Js.isWS cs
          rw [heq1] at this; simpa using this
        have l2 : r4.length + 7 ≤ r2.length := by
          have := matchStr_length heq2
          have h4 := length_dropWhile_le Js.isWS r2
          simp [this] at h4
          omega
        have l3 : r6.length + 2 ≤ r4.length := by
          have := length_dropWhile_le Js.isWS r4
          rw [heq3] at this; simpa using this
        omega
      next => exact absurd h (by simp)
    next => exact absurd h (by simp)
  next => exact absurd h (by simp)

theorem splitAtQuote_length {q : Char} {cs v rest : List Char}
    (h : Images.splitAtQuote q cs = some (v, rest)) : rest.length < cs.length := by
  unfold Images.splitAtQuote at h
  split at h
  next c r heq =>
    injection h with h'
    injection h' with h1 h2
    subst h2
    have := length_dropWhile_le (fun c => decide (c ≠ q)) cs
    rw [heq] at this
    simp at this
    omega
  next => exact absurd h (by simp)

theorem tryAltAttr_length {cs v rest : List Char}
    (h : Images.tryAltAttr cs = some (v, rest)) : rest.length < cs.length := by
  unfold Images.tryAltAttr at h
  split at h
  next c t =>
    split at h
    next =>
      split at h
      next r1 heq1 =>
        split at h
        next r3 heq2 =>
          split at h
          next r5 heq3 =>
            have l0 := splitAtQuote_length h
            have l1 : r3.length + 1 ≤ r1.length := by
              have := length_dropWhile_le Js.isWS r1
              rw [heq2] at this; simpa using this
            have l2 : r5.length + 1 ≤ r3.length := by
              have := length_dropWhile_le Js.isWS r3
              rw [heq3] at this; simpa using this
            have l3 : t.length = 3 + r1.length := matchStr_length heq1
            simp
            omega
          next r5 heq3 =>
            have l0 := splitAtQuote_length h
            have l1 : r3.length + 1 ≤ r1.length := by
              have := length_dropWhile_le Js.isWS r1
              rw [heq2] at this; simpa using this
            have l2 : r5.length + 1 ≤ r3.length := by
              have := length_dropWhile_le Js.isWS r3
              rw [heq3] at this; simpa using this
            have l3 : t.length = 3 + r1.length := matchStr_length heq1
            simp
            omega
          next => exact absurd h (by simp)
        next => exact absurd h (by simp)
      next => exact absurd h (by simp)
    next => exact absurd h (by simp)
  next => exact absurd h (by simp)

theorem trySlashStrip_length {cs rest : List Char}
    (h : Images.trySlashStrip cs = some rest) : rest.length < cs.length := by
  unfold Images.trySlashStrip at h
  split at h
  next r2 heq1 =>
    have l1 : r2.length + 1 ≤ cs.length := by
      have := length_dropWhile_le Js.isWS cs
      rw [heq1] at this; simpa using this
    split at h
    next heq2 =>
      injection h with h'
      subst h'
      simp; omega
    next r4 heq2 =>
      injection h with h'
      subst h'
      have l2 : r4.length + 1 ≤ r2.length := by
        have := length_dropWhile_le Js.isWS r2
        rw [heq2] at this; simpa using this
      simp; omega
    next => exact absurd h (by simp)
  next => exact absurd h (by simp)

theorem tryImgAt_length {cs tag rest : List Char}
    (h : Images.tryImgAt cs = some (tag, rest)) : rest.length < cs.length := by
  unfold Images.tryImgAt at h
  split at h
  next r heq1 =>
    split at h
    next =>
      split at h
      next rest' heq2 =>
        injection h with h'
        injection h' with h1 h2
        subst h2
        have l1 : cs.length = 4 + r.length := matchStrCI_length heq1
        have l2 : rest'.length + 1 ≤ r.length := by
          have := length_dropWhile_le (fun c => decide (c ≠ '>')) r
          rw [heq2] at this; simpa using this
        omega
      next => exact absurd h (by simp)
    next => exact absurd h (by simp)
  next => exact absurd h (by simp)

theorem findSub_length {pat cs b a : List Char}
    (h : Js.findSub pat cs = some (b, a)) : b.length + a.length ≤ cs.length := by
  induction cs generalizing b with
  | nil =>
    unfold Js.findSub at h
    split at h
    · injection h with h'
      injection h' with h1 h2
      subst h1; subst h2; simp
    · exact absurd h (by simp)
  | cons c t ih =>
    unfold Js.findSub at h
    split at h
    next =>
      injection h with h'
      injection h' with h1 h2
      subst h1; subst h2
      simp
    next =>
      split at h
      next b' a' heq =>
        injection h with h'
        injection h' with h1 h2
        subst h1; subst h2
        have := ih heq
        simp at this ⊢
        omega
      next => exact absurd h (by simp)

theorem tryFigure_length {cs full inner rest : List Char}
    (h : Images.tryFigure cs = some (full, inner, rest)) : rest.length < cs.length := by
  unfold Images.tryFigure at h
  split at h
  next r heq1 =>
    split at h
    next =>
      split at h
      next r2 heq2 =>
        split at h
        next inner' rest' heq3 =>
          injection h with h'
          injection h' with h1 h2
          injection h2 with h2a h2b
          subst h2b
          have l1 : cs.length = 7 + r.length := matchStr_length heq1
          have l2 : r2.length + 1 ≤ r.length := by
            have := length_dropWhile_le (fun c => decide (c ≠ '>')) r
            rw [heq2] at this; simpa using this
          have l3 := findSub_length heq3
          omega
        next => exact absurd h (by simp)
      next => exact absurd h (by simp)
    next => exact absurd h (by simp)
  next => exact absurd h (by simp)

theorem tryAttrPair_length {cs : List Char} {kv : List Char × List Char}
    {rest : List Char} (h : Embeds.tryAttrPair cs = some (kv, rest)) :
    rest.length < cs.length := by
  unfold Embeds.tryAttrPair at h
  split at h
  next c t =>
    split at h
    next =>
      split at h
      next r2 heq1 =>
        have l1 : r2.length + 1 ≤ (c :: t).length := by
          have h1 := length_dropWhile_le Js.isWS ((c :: t).dropWhile Js.isWordChar)
          have h2 := length_dropWhile_le Js.isWordChar (c :: t)
          rw [heq1] at h1
          simp at h1 h2 ⊢
          omega
        split at h
        next r4 heq2 =>
          split at h
          next v rest' heq3 =>
            injection h with h'
            injection h' with h1 h2
            subst h2
            have l2 : r4.length + 1 ≤ r2.length := by
              have := length_dropWhile_le Js.isWS r2
              rw [heq2] at this; simpa using this
            have l3 := splitAtQuote_length heq3
            omega
          next => exact absurd h (by simp)
        next r4 heq2 =>
          split at h
          next v rest' heq3 =>
            injection h with h'
            injection h' with h1 h2
            subst h2
            have l2 : r4.length + 1 ≤ r2.length := by
              have := length_dropWhile_le Js.isWS r2
              rw [heq2] at this; simpa using this
            have l3 := splitAtQuote_length heq3
            omega
          next => exact absurd h (by simp)
        next => exact absurd h (by simp)
      next => exact absurd h (by simp)
    next => exact absurd h (by simp)
  next => exact absurd h (by simp)

theorem tryEmbedHead_length {cs ind attr headFull rest : List Char}
    (h : Embeds.tryEmbedHead cs = some (ind, attr, headFull, rest)) :
    rest.length < cs.length := by
  unfold Embeds.tryEmbedHead at h
  split at h
  next r2 heq1 =>
    split at h
    next r3 heq2 =>
      split at h
      next =>
        split at h
        next r5 heq3 =>
          injection h with h'
          injection h' with h1 h2
          injection h2 with h2a h2b
          injection h2b with h3a h3b
          subst h3b
          have l1 : r2.length + 2 ≤ cs.length := by
            have := length_dropWhile_le Js.isWS cs
            rw [heq1] at this; simpa using this
          have l2 : (r2.dropWhile Js.isWS).length = 5 + r3.length :=
            matchStrCI_length heq2
          have l2b := length_dropWhile_le Js.isWS r2
          have l3 : r5.length + 2 ≤ r3.length := by
            have := length_dropWhile_le (fun c => decide (c ≠ '%')) r3
            rw [heq3] at this; simpa using this
          omega
        next => exact absurd h (by simp)
      next => exact absurd h (by simp)
    next => exact absurd h (by simp)
  next => exact absurd h (by simp)

theorem tryEndEmbed_length {cs endFull rest : List Char}
    (h : Embeds.tryEndEmbed cs = some (endFull, rest)) : rest.length < cs.length := by
  unfold Embeds.tryEndEmbed at h
  split at h
  next r2 heq1 =>
    split at h
    next r3 heq2 =>
      split at h
      next r5 heq3 =>
        injection h with h'
        injection h' with h1 h2
        subst h2
        have l1 : r2.length + 2 ≤ cs.length := by
          have := length_dropWhile_le Js.isWS cs
          rw [heq1] at this; simpa using this
        have l2 : (r2.dropWhile Js.isWS).length = 8 + r3.length :=
          matchStrCI_length heq2
        have l2b := length_dropWhile_le Js.isWS r2
        have l3 : r5.length + 2 ≤ r3.length := by
          have := length_dropWhile_le Js.isWS r3
          rw [heq3] at this; simpa using this
        omega
      next => exact absurd h (by simp)
    next => exact absurd h (by simp)
  next => exact absurd h (by simp)

theorem findEndEmbed_length {anchored : Bool} {cs inner endFull rest : List Char}
    (h : Embeds.findEndEmbed anchored cs = some (inner, endFull, rest)) :
    rest.length < cs.length := by
  induction cs generalizing anchored inner endFull with
  | nil => cases anchored <;> simp [Embeds.findEndEmbed] at h
  | cons c t ih =>
    cases anchored with
    | true =>
      simp only [Embeds.findEndEmbed] at h
      split at h
      next endFull' rest' heq =>
        injection h with h'; injection h' with h1 h2; injection h2 with h2a h2b
        subst h2a; subst h2b; exact tryEndEmbed_length heq
      next =>
        split at h
        next inner' endFull' rest' heq =>
          injection h with h'; injection h' with h1 h2; injection h2 with h2a h2b
          subst h2a; subst h2b
          have := ih heq
          simp
          omega
        next => exact absurd h (by simp)
    | false =>
      simp only [Embeds.findEndEmbed] at h
      split at h
      next inner' endFull' rest' heq =>
        injection h with h'; injection h' with h1 h2; injection h2 with h2a h2b
        subst h2a; subst h2b
        have := ih heq
        simp
        omega
      next => exact absurd h (by simp)

theorem tryBlock_length {cs : List Char} {m : Embeds.BlockMatch}
    (h : Embeds.tryBlock cs = some m) : m.rest.length < cs.length := by
  unfold Embeds.tryBlock at h
  split at h
  next ind attr headFull r5 heq1 =>
    split at h
    next inner endFull rest heq2 =>
      injection h with h'
      subst h'
      have l1 := tryEmbedHead_length heq1
      have l2 := findEndEmbed_length heq2
      simp
      omega
    next => exact absurd h (by simp)
  next => exact absurd h (by simp)

theorem trailingWsEol_length {cs ws rest : List Char}
    (h : Js.trailingWsEol cs = some (ws, rest)) : rest.length ≤ cs.length := by
  unfold Js.trailingWsEol at h
  split at h
  next =>
    injection h with h'
    injection h' with h1 h2
    subst h2; simp
  next =>
    split at h
    next a b heq =>
      injection h with h'
      injection h' with h1 h2
      subst h2
      have l1 : a.length + 1 + b.length = (cs.takeWhile Js.isWS).length := by
        unfold Js.findLastNl at heq
        split at heq
        next revInit heq2 =>
          injection heq with h3
          injection h3 with h3a h3b
          subst h3a; subst h3b
          have e1 : (cs.takeWhile Js.isWS).reverse.length =
              ((cs.takeWhile Js.isWS).reverse.takeWhile (fun c => c ≠ '\n')).length
              + ('\n' :: revInit).length := by
            conv_lhs => rw [← List.takeWhile_append_dropWhile
              (fun c => decide (c ≠ '\n')) (cs.takeWhile Js.isWS).reverse]
            rw [heq2]
            simp
          simp at e1 ⊢
          omega
        next => exact absurd heq (by simp)
      have l2 : (cs.takeWhile Js.isWS).length + (cs.dropWhile Js.isWS).length
          = cs.length := by
        rw [← List.length_append, List.takeWhile_append_dropWhile]
      simp
      omega
    next => exact absurd h (by simp)

theorem trySingle_length {cs : List Char} {m : Embeds.SingleMatch}
    (h : Embeds.trySingle cs = some m) : m.rest.length < cs.length := by
  unfold Embeds.trySingle at h
  split at h
  next ind attr headFull r5 heq1 =>
    split at h
    next wsC rest heq2 =>
      injection h with h'
      subst h'
      have l1 := tryEmbedHead_length heq1
      have l2 := trailingWsEol_length heq2
      simp
      omega
    next => exact absurd h (by simp)
  next => exact absurd h (by simp)

theorem findSubCI_length {pat cs b a : List Char}
    (h : Js.findSubCI pat cs = some (b, a)) :
    b.length + pat.length + a.length = cs.length := by
  induction cs generalizing b with
  | nil =>
    unfold Js.findSubCI at h
    split at h
    next rest heq =>
      injection h with h'
      injection h' with h1 h2
      subst h1; subst h2
      have := matchStrCI_length heq
      simp only [List.length_nil, List.length_cons, List.length_append] at this ⊢
      omega
    next => exact absurd h (by simp)
  | cons c t ih =>
    unfold Js.findSubCI at h
    split at h
    next rest heq =>
      injection h with h'
      injection h' with h1 h2
      subst h1; subst h2
      have := matchStrCI_length heq
      simp only [List.length_nil, List.length_cons, List.length_append] at this ⊢
      omega
    next =>
      split at h
      next b' a' heq =>
        injection h with h'
        injection h' with h1 h2
        subst h1; subst h2
        have := ih heq
        simp only [List.length_nil, List.length_cons, List.length_append] at this ⊢
        omega
      next => exact absurd h (by simp)

theorem tailLoop_le {cs rest : List Char}
    (h : Arcade.tailLoop cs = some rest) : rest.length + 9 ≤ cs.length := by
  induction cs with
  | nil => exact absurd h (by simp [Arcade.tailLoop])
  | cons c t ih =>
    unfold Arcade.tailLoop at h
    split at h
    next after heq =>
      split at h
      next w rest' heq2 =>
        injection h with h'
        subst h'
        have l1 : (c :: t).length = 9 + after.length := matchStrCI_length heq
        have l2 := trailingWsEol_length heq2
        simp only [List.length_cons] at l1 ⊢
        omega
      next =>
        have := ih h
        simp
        omega
    next =>
      have := ih h
      simp
      omega

theorem urlHead_length {cs pre rest : List Char}
    (h : Arcade.urlHead cs = some (pre, rest)) : rest.length + 27 ≤ cs.length := by
  unfold Arcade.urlHead at h
  split at h
  next r1 heq1 =>
    have l1 := matchStrCI_length heq1
    split at h
    next c t =>
      split at h
      next =>
        split at h
        next r2 heq2 =>
          injection h with h'
          injection h' with h1 h2
          subst h2
          have l2 := matchStrCI_length heq2
          simp at l1 l2
          omega
        next => exact absurd h (by simp)
      next =>
        split at h
        next r2 heq2 =>
          injection h with h'
          injection h' with h1 h2
          subst h2
          have l2 := matchStrCI_length heq2
          simp at l1 l2
          omega
        next => exact absurd h (by simp)
    next => exact absurd h (by simp)
  next => exact absurd h (by simp)

theorem capLoop_length {r3 : List Char} {j : Nat} {cap rest : List Char}
    (h : Arcade.capLoop r3 j = some (cap, rest)) : rest.length < r3.length := by
  induction j with
  | zero => exact absurd h (by simp [Arcade.capLoop])
  | succ j ih =>
    unfold Arcade.capLoop at h
    split at h
    next c t heq =>
      split at h
      next =>
        split at h
        next rest' heq2 =>
          injection h with h'
          injection h' with h1 h2
          subst h2
          have l1 := tailLoop_le heq2
          have l2 : t.length + (j + 2) ≤ r3.length := by
            have : (r3.drop (j + 1)).length = r3.length - (j + 1) := by simp
            rw [heq] at this
            simp at this
            omega
          omega
        next => exact ih h
      next => exact ih h
    next => exact ih h

theorem tryFromSrc_length {rem url rest : List Char}
    (h : Arcade.tryFromSrc rem = some (url, rest)) : rest.length < rem.length := by
  unfold Arcade.tryFromSrc at h
  split at h
  next c t =>
    split at h
    next =>
      split at h
      next r1 heq1 =>
        split at h
        next q r2 =>
          split at h
          next =>
            split at h
            next urlPre r3 heq2 =>
              split at h
              next cap rest' heq3 =>
                injection h with h'
                injection h' with h1 h2
                subst h2
                have l1 : t.length = 4 + (q :: r2).length :=
                  matchStrCI_length heq1
                have l2 := urlHead_length heq2
                have l3 := capLoop_length heq3
                simp only [List.length_cons] at l1 ⊢
                omega
              next => exact absurd h (by simp)
            next => exact absurd h (by simp)
          next => exact absurd h (by simp)
        next => exact absurd h (by simp)
      next => exact absurd h (by simp)
    next => exact absurd h (by simp)
  next => exact absurd h (by simp)

theorem kLoop_length {r : List Char} {k : Nat} {url rest : List Char}
    (h : Arcade.kLoop r k = some (url, rest)) : rest.length < r.length := by
  induction k with
  | zero => exact tryFromSrc_length h
  | succ k ih =>
    unfold Arcade.kLoop at h
    split at h
    next x heq =>
      injection h with h'
      subst h'
      have l1 := tryFromSrc_length heq
      have l2 : (r.drop (k + 1)).length ≤ r.length := by simp
      omega
    next => exact ih h

theorem tryArcade_length {cs ind url rest : List Char}
    (h : Arcade.tryArcade cs = some (ind, url, rest)) : rest.length < cs.length := by
  unfold Arcade.tryArcade at h
  split at h
  next r heq1 =>
    split at h
    next =>
      split at h
      next url' rest' heq2 =>
        injection h with h'
        injection h' with h1 h2
        injection h2 with h2a h2b
        subst h2b
        have l1 := matchStrCI_length heq1
        have l2 := kLoop_length heq2
        have l3 := length_dropWhile_le Js.isWS cs
        simp at l1
        omega
      next => exact absurd h (by simp)
    next => exact absurd h (by simp)
  next => exact absurd h (by simp)

theorem matchStr_self_append (pat r : List Char) :
    Js.matchStr pat (pat ++ r) = some r := by
  induction pat with
  | nil => rfl
  | cons p ps ih => simp [Js.matchStr, ih]

theorem matchStrCI_of_map_lower {pre pat : List Char}
    (h : pre.map Js.lowerChar = pat) (r : List Char) :
    Js.matchStrCI pat (pre ++ r) = some r := by
  induction pre generalizing pat with
  | nil => subst h; rfl
  | cons c t ih =>
    subst h
    simp [Js.matchStrCI, ih rfl]

theorem matchStrCI_map_lower {pat cs r : List Char}
    (h : Js.matchStrCI pat cs = some r) :
    cs.map Js.lowerChar = pat ++ r.map Js.lowerChar := by
  induction pat generalizing cs with
  | nil => simp [Js.matchStrCI] at h; simp [h]
  | cons p ps ih =>
    cases cs with
    | nil => exact absurd h (by simp [Js.matchStrCI])
    | cons c t =>
      by_cases hc : Js.lowerChar c = p
      · simp only [Js.matchStrCI, if_pos hc] at h
        simp [hc, ih h]
      · simp [Js.matchStrCI, if_neg hc] at h

theorem matchStrCI_take_append {pat cs r : List Char}
    (h : Js.matchStrCI pat cs = some r) : cs = cs.take pat.length ++ r := by
  induction pat generalizing cs with
  | nil => simp [Js.matchStrCI] at h; simp [h]
  | cons p ps ih =>
    cases cs with
    | nil => exact absurd h (by simp [Js.matchStrCI])
    | cons c t =>
      by_cases hc : Js.lowerChar c = p
      · simp only [Js.matchStrCI, if_pos hc] at h
        simpa using ih h
      · simp [Js.matchStrCI, if_neg hc] at h

theorem isPrefixOf_eq_append {pat cs : List Char}
    (h : pat.isPrefixOf cs = true) : cs = pat ++ cs.drop pat.length := by
  induction pat generalizing cs with
  | nil => simp
  | cons p ps ih =>
    cases cs with
    | nil => exact absurd h (by simp [List.isPrefixOf])
    | cons c t =>
      simp only [List.isPrefixOf, Bool.and_eq_true, beq_iff_eq] at h
      obtain ⟨h1, h2⟩ := h
      simpa [h1] using ih h2

theorem takeWhile_append_cons {p : Char → Bool} {a : List Char} {b : Char}
    {bs : List Char} (ha : ∀ x ∈ a, p x = true) (hb : p b = false) :
    ((a ++ b :: bs).takeWhile p = a ∧ (a ++ b :: bs).dropWhile p = b :: bs) := by
  induction a with
  | nil => simp [List.takeWhile, List.dropWhile, hb]
  | cons x xs ih =>
    have hx : p x = true := ha x (by simp)
    have ih' := ih (fun y hy => ha y (by simp [hy]))
    simp [List.takeWhile, List.dropWhile, hx, ih'.1, ih'.2]

theorem dropWhile_head_false {p : Char → Bool} {cs : List Char} {c : Char}
    {t : List Char} (h : cs.dropWhile p = c :: t) : p c = false := by
  induction cs with
  | nil => exact absurd h (by simp)
  | cons x xs ih =>
    by_cases hx : p x = true
    · exact ih (by simpa [List.dropWhile, hx] using h)
    · simp only [List.dropWhile, hx] at h
      rw [Bool.not_eq_true] at hx
      injection h with h1 h2
      rwa [← h1]

theorem findSub_split {pat cs b a : List Char}
    (h : Js.findSub pat cs = some (b, a)) : cs = b ++ pat ++ a := by
  induction cs generalizing b with
  | nil =>
    unfold Js.findSub at h
    split at h
    next hp =>
      injection h with h'
      injection h' with h1 h2
      subst h1; subst h2
      simp_all [List.isEmpty_iff]
    next => exact absurd h (by simp)
  | cons c t ih =>
    unfold Js.findSub at h
    split at h
    next hp =>
      injection h with h'
      injection h' with h1 h2
      subst h1; subst h2
      simpa using isPrefixOf_eq_append hp
    next =>
      split at h
      next b' a' heq =>
        injection h with h'
        injection h' with h1 h2
        subst h1; subst h2
        simpa using ih heq
      next => exact absurd h (by simp)

theorem findLastNl_split {ws a b : List Char}
    (h : Js.findLastNl ws = some (a, b)) : ws = a ++ '\n' :: b := by
  unfold Js.findLastNl at h
  split at h
  next revInit heq =>
    injection h with h'
    injection h' with h1 h2
    subst h1; subst h2
    have hsplit : ws.reverse.takeWhile (fun c => c ≠ '\n')
        ++ ws.reverse.dropWhile (fun c => c ≠ '\n') = ws.reverse :=
      List.takeWhile_append_dropWhile _ _
    rw [heq] at hsplit
    have := congrArg List.reverse hsplit
    simpa using this.symm
  next => exact absurd h (by simp)

theorem trailingWsEol_split {cs w rest : List Char}
    (h : Js.trailingWsEol cs = some (w, rest)) : w ++ rest = cs := by
  unfold Js.trailingWsEol at h
  split at h
  next hemp =>
    injection h with h'
    injection h' with h1 h2
    subst h1; subst h2
    rw [List.isEmpty_iff] at hemp
    conv_rhs => rw [← List.takeWhile_append_dropWhile Js.isWS cs]
    simp [hemp]
  next =>
    split at h
    next a b heq =>
      injection h with h'
      injection h' with h1 h2
      subst h1; subst h2
      have hs := findLastNl_split heq
      conv_rhs => rw [← List.takeWhile_append_dropWhile Js.isWS cs]
      rw [hs]
      simp
    next => exact absurd h (by simp)

theorem containsSub_of_parts {s u v pat : List Char}
    (hs : s = u ++ v) (hp : pat.isPrefixOf v = true) :
    Js.containsSub s pat = true := by
  subst hs
  induction u with
  | nil =>
    unfold Js.containsSub
    simp [hp]
  | cons x xs ih =>
    unfold Js.containsSub
    split
    · rfl
    · simpa using ih

theorem tryEmbedHead_full {cs ind attr headFull r5 : List Char}
    (h : Embeds.tryEmbedHead cs = some (ind, attr, headFull, r5)) :
    headFull ++ r5 = cs := by
  unfold Embeds.tryEmbedHead at h
  split at h
  next r2 heq1 =>
    split at h
    next r3 heq2 =>
      split at h
      next =>
        split at h
        next r5' heq3 =>
          injection h with h'
          injection h' with h1 h2
          injection h2 with h2a h2b
          injection h2b with h3a h3b
          rw [← h3a, ← h3b]
          have e0 : cs.takeWhile Js.isWS ++ cs.dropWhile Js.isWS = cs :=
            List.takeWhile_append_dropWhile _ _
          have e2 : r2.takeWhile Js.isWS ++ r2.dropWhile Js.isWS = r2 :=
            List.takeWhile_append_dropWhile _ _
          have e3 : r2.dropWhile Js.isWS = (r2.dropWhile Js.isWS).take 5 ++ r3 :=
            matchStrCI_take_append heq2
          have e4 : r3.takeWhile (fun c => c ≠ '%')
              ++ r3.dropWhile (fun c => c ≠ '%') = r3 :=
            List.takeWhile_append_dropWhile _ _
          have hr3 : r3 = r3.takeWhile (fun c => c ≠ '%')
              ++ '%' :: '\x7d' :: r5' := by
            rw [← heq3, e4]
          rw [hr3] at e3
          rw [e3] at e2
          conv_rhs => rw [← e0, heq1, ← e2]
          simp
        next => exact absurd h (by simp)
      next => exact absurd h (by simp)
    next => exact absurd h (by simp)
  next => exact absurd h (by simp)

theorem tryEndEmbed_full {cs endFull rest : List Char}
    (h : Embeds.tryEndEmbed cs = some (endFull, rest)) :
    endFull ++ rest = cs := by
  unfold Embeds.tryEndEmbed at h
  split at h
  next r2 heq1 =>
    split at h
    next r3 heq2 =>
      split at h
      next r5 heq3 =>
        injection h with h'
        injection h' with h1 h2
        rw [← h1, ← h2]
        have e0 : cs.takeWhile Js.isWS ++ cs.dropWhile Js.isWS = cs :=
          List.takeWhile_append_dropWhile _ _
        have e2 : r2.takeWhile Js.isWS ++ r2.dropWhile Js.isWS = r2 :=
          List.takeWhile_append_dropWhile _ _
        have e3 : r2.dropWhile Js.isWS = (r2.dropWhile Js.isWS).take 8 ++ r3 :=
          matchStrCI_take_append heq2
        have e4 : r3.takeWhile Js.isWS ++ r3.dropWhile Js.isWS = r3 :=
          List.takeWhile_append_dropWhile _ _
        have hr3 : r3 = r3.takeWhile Js.isWS ++ '%' :: '\x7d' :: r5 := by
          rw [← heq3, e4]
        rw [hr3] at e3
        rw [e3] at e2
        conv_rhs => rw [← e0, heq1, ← e2]
        simp
      next => exact absurd h (by simp)
    next => exact absurd h (by simp)
  next => exact absurd h (by simp)

theorem findEndEmbed_full {anchored : Bool} {cs inner endFull rest : List Char}
    (h : Embeds.findEndEmbed anchored cs = some (inner, endFull, rest)) :
    inner ++ endFull ++ rest = cs := by
  induction cs generalizing anchored inner endFull with
  | nil => cases anchored <;> simp [Embeds.findEndEmbed] at h
  | cons c t ih =>
    cases anchored with
    | true =>
      simp only [Embeds.findEndEmbed] at h
      split at h
      next endFull' rest' heq =>
        injection h with h'
        injection h' with h1 h2
        injection h2 with h2a h2b
        subst h1; subst h2a; subst h2b
        simpa using tryEndEmbed_full heq
      next =>
        split at h
        next inner' endFull' rest' heq =>
          injection h with h'
          injection h' with h1 h2
          injection h2 with h2a h2b
          subst h1; subst h2a; subst h2b
          simpa using ih heq
        next => exact absurd h (by simp)
    | false =>
      simp only [Embeds.findEndEmbed] at h
      split at h
      next inner' endFull' rest' heq =>
        injection h with h'
        injection h' with h1 h2
        injection h2 with h2a h2b
        subst h1; subst h2a; subst h2b
        simpa using ih heq
      next => exact absurd h (by simp)

theorem tryBlock_full {cs : List Char} {m : Embeds.BlockMatch}
    (h : Embeds.tryBlock cs = some m) : m.full ++ m.rest = cs := by
  unfold Embeds.tryBlock at h
  split at h
  next ind attr headFull r5 heq1 =>
    split at h
    next inner endFull rest heq2 =>
      injection h with h'
      subst h'
      have e1 := tryEmbedHead_full heq1
      have e2 := findEndEmbed_full heq2
      simp only []
      rw [← e1, ← e2]
      simp
    next => exact absurd h (by simp)
  next => exact absurd h (by simp)

theorem trySingle_full {cs : List Char} {m : Embeds.SingleMatch}
    (h : Embeds.trySingle cs = some m) : m.full ++ m.rest = cs := by
  unfold Embeds.trySingle at h
  split at h
  next ind attr headFull r5 heq1 =>
    split at h
    next wsC rest heq2 =>
      injection h with h'
      subst h'
      have e1 := tryEmbedHead_full heq1
      have e2 := trailingWsEol_split heq2
      simp only []
      rw [← e1, ← e2]
      simp
    next => exact absurd h (by simp)
  next => exact absurd h (by simp)

theorem tryFigure_full {cs full inner rest : List Char}
    (h : Images.tryFigure cs = some (full, inner, rest)) : full ++ rest = cs := by
  unfold Images.tryFigure at h
  split at h
  next r heq1 =>
    split at h
    next =>
      split at h
      next r2 heq2 =>
        split at h
        next inner' rest' heq3 =>
          injection h with h'
          injection h' with h1 h2
          injection h2 with h2a h2b
          subst h1; subst h2a; subst h2b
          have e1 : cs = "<figure".data ++ r := matchStr_eq_append heq1
          have e2 : r.takeWhile (fun c => c ≠ '>')
              ++ r.dropWhile (fun c => c ≠ '>') = r :=
            List.takeWhile_append_dropWhile _ _
          have e3 : r2 = inner' ++ "</figure>".data ++ rest' := findSub_split heq3
          conv_rhs => rw [e1, ← e2, heq2, e3]
          simp
        next => exact absurd h (by simp)
      next => exact absurd h (by simp)
    next => exact absurd h (by simp)
  next => exact absurd h (by simp)

theorem tryImgAt_full {cs tag rest : List Char}
    (h : Images.tryImgAt cs = some (tag, rest)) : tag ++ rest = cs := by
  unfold Images.tryImgAt at h
  split at h
  next r heq1 =>
    split at h
    next =>
      split at h
      next rest' heq2 =>
        injection h with h'
        injection h' with h1 h2
        subst h1; subst h2
        have e1 : cs = cs.take 4 ++ r := matchStrCI_take_append heq1
        have e2 : r.takeWhile (fun c => c ≠ '>')
            ++ r.dropWhile (fun c => c ≠ '>') = r :=
          List.takeWhile_append_dropWhile _ _
        conv_rhs => rw [e1, ← e2, heq2]
        simp
      next => exact absurd h (by simp)
    next => exact absurd h (by simp)
  next => exact absurd h (by simp)

theorem startScan_false_cons (fuel : Nat) (c : Char) (t : List Char) :
    Hints.startScan (fuel + 1) false (c :: t)
      = (c :: (Hints.startScan fuel (c = '\n') t).1,
         (Hints.startScan fuel (c = '\n') t).2) := rfl

theorem startScan_true_match {c : Char} {t ind rest : List Char} (fuel : Nat)
    (hm : Hints.tryHintStart (c :: t) = some (ind, rest)) :
    Hints.startScan (fuel + 1) true (c :: t)
      = (ind ++ "<Note>".data ++ (Hints.startScan fuel false rest).1,
         (Hints.startScan fuel false rest).2 + 1) := by
  simp only [Hints.startScan, hm, if_true]

theorem startScan_true_nomatch {c : Char} {t : List Char} (fuel : Nat)
    (hm : Hints.tryHintStart (c :: t) = none) :
    Hints.startScan (fuel + 1) true (c :: t)
      = (c :: (Hints.startScan fuel (c = '\n') t).1,
         (Hints.startScan fuel (c = '\n') t).2) := by
  simp only [Hints.startScan, hm, if_true]

theorem endScan_false_cons (fuel : Nat) (c : Char) (t : List Char) :
    Hints.endScan (fuel + 1) false (c :: t)
      = (c :: (Hints.endScan fuel (c = '\n') t).1,
         (Hints.endScan fuel (c = '\n') t).2) := rfl

theorem endScan_true_match {c : Char} {t ind rest : List Char} (fuel : Nat)
    (hm : Hints.tryHintEnd (c :: t) = some (ind, rest)) :
    Hints.endScan (fuel + 1) true (c :: t)
      = (ind ++ "</Note>".data ++ (Hints.endScan fuel false rest).1,
         (Hints.endScan fuel false rest).2 + 1) := by
  simp only [Hints.endScan, hm, if_true]

theorem endScan_true_nomatch {c : Char} {t : List Char} (fuel : Nat)
    (hm : Hints.tryHintEnd (c :: t) = none) :
    Hints.endScan (fuel + 1) true (c :: t)
      = (c :: (Hints.endScan fuel (c = '\n') t).1,
         (Hints.endScan fuel (c = '\n') t).2) := by
  simp only [Hints.endScan, hm, if_true]

theorem startScan_zero (fuel : Nat) : ∀ (b : Bool) (cs : List Char),
    cs.length < fuel → (Hints.startScan fuel b cs).2 = 0 →
    (Hints.startScan fuel b cs).1 = cs := by
  induction fuel with
  | zero => intro b cs h; exact absurd h (Nat.not_lt_zero _)
  | succ fuel ih =>
    intro b cs hlen h
    cases cs with
    | nil => rfl
    | cons c t =>
      have hlt : t.length < fuel := by simp at hlen; omega
      cases b with
      | false =>
        rw [startScan_false_cons] at h ⊢
        simp only [List.cons.injEq, true_and]
        exact ih _ t hlt h
      | true =>
        cases hm : Hints.tryHintStart (c :: t) with
        | some val =>
          obtain ⟨ind, rest⟩ := val
          rw [startScan_true_match fuel hm] at h
          simp at h
        | none =>
          rw [startScan_true_nomatch fuel hm] at h ⊢
          simp only [List.cons.injEq, true_and]
          exact ih _ t hlt h

theorem endScan_zero (fuel : Nat) : ∀ (b : Bool) (cs : List Char),
    cs.length < fuel → (Hints.endScan fuel b cs).2 = 0 →
    (Hints.endScan fuel b cs).1 = cs := by
  induction fuel with
  | zero => intro b cs h; exact absurd h (Nat.not_lt_zero _)
  | succ fuel ih =>
    intro b cs hlen h
    cases cs with
    | nil => rfl
    | cons c t =>
      have hlt : t.length < fuel := by simp at hlen; omega
      cases b with
      | false =>
        rw [endScan_false_cons] at h ⊢
        simp only [List.cons.injEq, true_and]
        exact ih _ t hlt h
      | true =>
        cases hm : Hints.tryHintEnd (c :: t) with
        | some val =>
          obtain ⟨ind, rest⟩ := val
          rw [endScan_true_match fuel hm] at h
          simp at h
        | none =>
          rw [endScan_true_nomatch fuel hm] at h ⊢
          simp only [List.cons.injEq, true_and]
          exact ih _ t hlt h

theorem arcadeScan_false_cons (fuel : Nat) (c : Char) (t : List Char) :
    Arcade.arcadeScan (fuel + 1) false (c :: t)
      = (c :: (Arcade.arcadeScan fuel (c = '\n') t).1,
         (Arcade.arcadeScan fuel (c = '\n') t).2) := rfl

theorem arcadeScan_true_match {c : Char} {t ind url rest : List Char} (fuel : Nat)
    (hm : Arcade.tryArcade (c :: t) = some (ind, url, rest)) :
    Arcade.arcadeScan (fuel + 1) true (c :: t)
      = (ind ++ url ++ (Arcade.arcadeScan fuel false rest).1,
         (Arcade.arcadeScan fuel false rest).2 + 1) := by
  simp only [Arcade.arcadeScan, hm, if_true]

theorem arcadeScan_true_nomatch {c : Char} {t : List Char} (fuel : Nat)
    (hm : Arcade.tryArcade (c :: t) = none) :
    Arcade.arcadeScan (fuel + 1) true (c :: t)
      = (c :: (Arcade.arcadeScan fuel (c = '\n') t).1,
         (Arcade.arcadeScan fuel (c = '\n') t).2) := by
  simp only [Arcade.arcadeScan, hm, if_true]

theorem arcadeScan_zero (fuel : Nat) : ∀ (b : Bool) (cs : List Char),
    cs.length < fuel → (Arcade.arcadeScan fuel b cs).2 = 0 →
    (Arcade.arcadeScan fuel b cs).1 = cs := by
  induction fuel with
  | zero => intro b cs h; exact absurd h (Nat.not_lt_zero _)
  | succ fuel ih =>
    intro b cs hlen h
    cases cs with
    | nil => rfl
    | cons c t =>
      have hlt : t.length < fuel := by simp at hlen; omega
      cases b with
      | false =>
        rw [arcadeScan_false_cons] at h ⊢
        simp only [List.cons.injEq, true_and]
        exact ih _ t hlt h
      | true =>
        cases hm : Arcade.tryArcade (c :: t) with
        | some val =>
          obtain ⟨ind, val2⟩ := val
          obtain ⟨url, rest⟩ := val2
          rw [arcadeScan_true_match fuel hm] at h
          simp at h
        | none =>
          rw [arcadeScan_true_nomatch fuel hm] at h ⊢
          simp only [List.cons.injEq, true_and]
          exact ih _ t hlt h

theorem blockScan_false_cons (fuel : Nat) (c : Char) (t : List Char) :
    Embeds.blockScan (fuel + 1) false (c :: t)
      = (c :: (Embeds.blockScan fuel (c = '\n') t).1,
         (Embeds.blockScan fuel (c = '\n') t).2) := rfl

theorem blockScan_true_nomatch {c : Char} {t : List Char} (fuel : Nat)
    (hm : Embeds.tryBlock (c :: t) = none) :
    Embeds.blockScan (fuel + 1) true (c :: t)
      = (c :: (Embeds.blockScan fuel (c = '\n') t).1,
         (Embeds.blockScan fuel (c = '\n') t).2) := by
  simp only [Embeds.blockScan, hm, if_true]

theorem blockScan_true_nourl {c : Char} {t : List Char} {m : Embeds.BlockMatch}
    (fuel : Nat) (hm : Embeds.tryBlock (c :: t) = some m)
    (hurl : (Embeds.lookupLast "url".data (Embeds.parseEmbedAttrs m.attr)).isEmpty
      = true) :
    Embeds.blockScan (fuel + 1) true (c :: t)
      = (m.full ++ (Embeds.blockScan fuel false m.rest).1,
         (Embeds.blockScan fuel false m.rest).2) := by
  simp only [Embeds.blockScan, hm, if_true, hurl]

theorem blockScan_true_url {c : Char} {t : List Char} {m : Embeds.BlockMatch}
    (fuel : Nat) (hm : Embeds.tryBlock (c :: t) = some m)
    (hurl : (Embeds.lookupLast "url".data (Embeds.parseEmbedAttrs m.attr)).isEmpty
      = false) :
    Embeds.blockScan (fuel + 1) true (c :: t)
      = (Embeds.buildIframe (Embeds.lookupLast "url".data (Embeds.parseEmbedAttrs m.attr))
           (Embeds.blockCaption (Embeds.parseEmbedAttrs m.attr) m.inner) m.indent
           ++ (Embeds.blockScan fuel false m.rest).1,
         (Embeds.blockScan fuel false m.rest).2 + 1) := by
  simp only [Embeds.blockScan, hm, if_true, hurl, Bool.false_eq_true, if_false]

theorem singleScan_false_cons (fuel : Nat) (c : Char) (t : List Char) :
    Embeds.singleScan (fuel + 1) false (c :: t)
      = (c :: (Embeds.singleScan fuel (c = '\n') t).1,
         (Embeds.singleScan fuel (c = '\n') t).2) := rfl

theorem singleScan_true_nomatch {c : Char} {t : List Char} (fuel : Nat)
    (hm : Embeds.trySingle (c :: t) = none) :
    Embeds.singleScan (fuel + 1) true (c :: t)
      = (c :: (Embeds.singleScan fuel (c = '\n') t).1,
         (Embeds.singleScan fuel (c = '\n') t).2) := by
  simp only [Embeds.singleScan, hm, if_true]

theorem singleScan_true_nourl {c : Char} {t : List Char} {m : Embeds.SingleMatch}
    (fuel : Nat) (hm : Embeds.trySingle (c :: t) = some m)
    (hurl : (Embeds.lookupLast "url".data (Embeds.parseEmbedAttrs m.attr)).isEmpty
      = true) :
    Embeds.singleScan (fuel + 1) true (c :: t)
      = (m.full ++ (Embeds.singleScan fuel false m.rest).1,
         (Embeds.singleScan fuel false m.rest).2) := by
  simp only [Embeds.singleScan, hm, if_true, hurl]

theorem singleScan_true_url {c : Char} {t : List Char} {m : Embeds.SingleMatch}
    (fuel : Nat) (hm : Embeds.trySingle (c :: t) = some m)
    (hurl : (Embeds.lookupLast "url".data (Embeds.parseEmbedAttrs m.attr)).isEmpty
      = false) :
    Embeds.singleScan (fuel + 1) true (c :: t)
      = (Embeds.buildIframe (Embeds.lookupLast "url".data (Embeds.parseEmbedAttrs m.attr))
           (Embeds.singleCaption (Embeds.parseEmbedAttrs m.attr)) m.indent
           ++ (Embeds.singleScan fuel false m.rest).1,
         (Embeds.singleScan fuel false m.rest).2 + 1) := by
  simp only [Embeds.singleScan, hm, if_true, hurl, Bool.false_eq_true, if_false]

theorem blockScan_zero (fuel : Nat) : ∀ (b : Bool) (cs : List Char),
    cs.length < fuel → (Embeds.blockScan fuel b cs).2 = 0 →
    (Embeds.blockScan fuel b cs).1 = cs := by
  induction fuel with
  | zero => intro b cs h; exact absurd h (Nat.not_lt_zero _)
  | succ fuel ih =>
    intro b cs hlen h
    cases cs with
    | nil => rfl
    | cons c t =>
      have hlt : t.length < fuel := by simp at hlen; omega
      cases b with
      | false =>
        rw [blockScan_false_cons] at h ⊢
        simp only [List.cons.injEq, true_and]
        exact ih _ t hlt h
      | true =>
        cases hm : Embeds.tryBlock (c :: t) with
        | some m =>
          have hrt : m.rest.length < fuel := by
            have := tryBlock_length hm
            simp at this hlen
            omega
          cases hurl : (Embeds.lookupLast "url".data
              (Embeds.parseEmbedAttrs m.attr)).isEmpty with
          | true =>
            rw [blockScan_true_nourl fuel hm hurl] at h ⊢
            have := ih _ m.rest hrt h
            rw [this]
            exact tryBlock_full hm
          | false =>
            rw [blockScan_true_url fuel hm hurl] at h
            simp at h
        | none =>
          rw [blockScan_true_nomatch fuel hm] at h ⊢
          simp only [List.cons.injEq, true_and]
          exact ih _ t hlt h

theorem singleScan_zero (fuel : Nat) : ∀ (b : Bool) (cs : List Char),
    cs.length < fuel → (Embeds.singleScan fuel b cs).2 = 0 →
    (Embeds.singleScan fuel b cs).1 = cs := by
  induction fuel with
  | zero => intro b cs h; exact absurd h (Nat.not_lt_zero _)
  | succ fuel ih =>
    intro b cs hlen h
    cases cs with
    | nil => rfl
    | cons c t =>
      have hlt : t.length < fuel := by simp at hlen; omega
      cases b with
      | false =>
        rw [singleScan_false_cons] at h ⊢
        simp only [List.cons.injEq, true_and]
        exact ih _ t hlt h
      | true =>
        cases hm : Embeds.trySingle (c :: t) with
        | some m =>
          have hrt : m.rest.length < fuel := by
            have := trySingle_length hm
            simp at this hlen
            omega
          cases hurl : (Embeds.lookupLast "url".data
              (Embeds.parseEmbedAttrs m.attr)).isEmpty with
          | true =>
            rw [singleScan_true_nourl fuel hm hurl] at h ⊢
            have := ih _ m.rest hrt h
            rw [this]
            exact trySingle_full hm
          | false =>
            rw [singleScan_true_url fuel hm hurl] at h
            simp at h
        | none =>
          rw [singleScan_true_nomatch fuel hm] at h ⊢
          simp only [List.cons.injEq, true_and]
          exact ih _ t hlt h

theorem figScan_cons_nomatch {c : Char} {t : List Char} (fuel : Nat)
    (hm : Images.tryFigure (c :: t) = none) :
    Images.figScan (fuel + 1) (c :: t)
      = (c :: (Images.figScan fuel t).1, (Images.figScan fuel t).2) := by
  simp only [Images.figScan, hm]

theorem figScan_cons_noimg {c : Char} {t full inner rest : List Char} (fuel : Nat)
    (hm : Images.tryFigure (c :: t) = some (full, inner, rest))
    (hni : Images.findImgTag inner = none) :
    Images.figScan (fuel + 1) (c :: t)
      = (full ++ (Images.figScan fuel rest).1, (Images.figScan fuel rest).2) := by
  simp only [Images.figScan, hm, hni]

theorem figScan_cons_img {c : Char} {t full inner rest imgTag : List Char}
    (fuel : Nat) (hm : Images.tryFigure (c :: t) = some (full, inner, rest))
    (hi : Images.findImgTag inner = some imgTag) :
    Images.figScan (fuel + 1) (c :: t)
      = (full.takeWhile Js.isWS ++ Images.normalizeImgTag imgTag
          (match Images.findFigcaption inner with
           | some capInner => Js.trim (Images.stripTags (capInner.length + 1) capInner)
           | none => []) ++ (Images.figScan fuel rest).1,
         (Images.figScan fuel rest).2 + 1) := by
  simp only [Images.figScan, hm, hi]

theorem imgScan_cons_nomatch {c : Char} {t : List Char} (fuel : Nat)
    (hm : Images.tryImgAt (c :: t) = none) :
    Images.imgScan (fuel + 1) (c :: t)
      = (c :: (Images.imgScan fuel t).1, (Images.imgScan fuel t).2) := by
  simp only [Images.imgScan, hm]

theorem imgScan_cons_same {c : Char} {t tag rest : List Char} (fuel : Nat)
    (hm : Images.tryImgAt (c :: t) = some (tag, rest))
    (hsame : Images.normalizeImgTag tag [] = tag) :
    Images.imgScan (fuel + 1) (c :: t)
      = (Images.normalizeImgTag tag [] ++ (Images.imgScan fuel rest).1,
         (Images.imgScan fuel rest).2) := by
  simp only [Images.imgScan, hm, hsame, if_pos]

theorem imgScan_cons_diff {c : Char} {t tag rest : List Char} (fuel : Nat)
    (hm : Images.tryImgAt (c :: t) = some (tag, rest))
    (hdiff : ¬ Images.normalizeImgTag tag [] = tag) :
    Images.imgScan (fuel + 1) (c :: t)
      = (Images.normalizeImgTag tag [] ++ (Images.imgScan fuel rest).1,
         (Images.imgScan fuel rest).2 + 1) := by
  simp only [Images.imgScan, hm, hdiff, if_false]

theorem figScan_zero (fuel : Nat) : ∀ (cs : List Char),
    cs.length < fuel → (Images.figScan fuel cs).2 = 0 →
    (Images.figScan fuel cs).1 = cs := by
  induction fuel with
  | zero => intro cs h; exact absurd h (Nat.not_lt_zero _)
  | succ fuel ih =>
    intro cs hlen h
    cases cs with
    | nil => rfl
    | cons c t =>
      have hlt : t.length < fuel := by simp at hlen; omega
      cases hm : Images.tryFigure (c :: t) with
      | some v =>
        obtain ⟨full, v2⟩ := v
        obtain ⟨inner, rest⟩ := v2
        have hrt : rest.length < fuel := by
          have := tryFigure_length hm
          simp at this hlen
          omega
        cases hi : Images.findImgTag inner with
        | some imgTag =>
          rw [figScan_cons_img fuel hm hi] at h
          simp at h
        | none =>
          rw [figScan_cons_noimg fuel hm hi] at h ⊢
          have := ih rest hrt h
          rw [this]
          exact tryFigure_full hm
      | none =>
        rw [figScan_cons_nomatch fuel hm] at h ⊢
        simp only [List.cons.injEq, true_and]
        exact ih t hlt h

theorem imgScan_zero (fuel : Nat) : ∀ (cs : List Char),
    cs.length < fuel → (Images.imgScan fuel cs).2 = 0 →
    (Images.imgScan fuel cs).1 = cs := by
  induction fuel with
  | zero => intro cs h; exact absurd h (Nat.not_lt_zero _)
  | succ fuel ih =>
    intro cs hlen h
    cases cs with
    | nil => rfl
    | cons c t =>
      have hlt : t.length < fuel := by simp at hlen; omega
      cases hm : Images.tryImgAt (c :: t) with
      | some v =>
        obtain ⟨tag, rest⟩ := v
        have hrt : rest.length < fuel := by
          have := tryImgAt_length hm
          simp at this hlen
          omega
        by_cases hs : Images.normalizeImgTag tag [] = tag
        · rw [imgScan_cons_same fuel hm hs] at h ⊢
          have := ih rest hrt h
          rw [this, hs]
          exact tryImgAt_full hm
        · rw [imgScan_cons_diff fuel hm hs] at h
          simp at h
      | none =>
        rw [imgScan_cons_nomatch fuel hm] at h ⊢
        simp only [List.cons.injEq, true_and]
        exact ih t hlt h

theorem hints_changed_false_text {t : List Char}
    (h : (Hints.processContent t).changed = false) :
    (Hints.processContent t).text = t := by
  unfold Hints.processContent at h ⊢
  simp only [Bool.not_eq_false', Bool.and_eq_true, beq_iff_eq] at h
  obtain ⟨h1, h2⟩ := h
  have e1 : (Hints.startScan (t.length + 1) true t).1 = t :=
    startScan_zero _ _ _ (Nat.lt_succ_self _) h1
  have e2 := endScan_zero ((Hints.startScan (t.length + 1) true t).1.length + 1)
    true (Hints.startScan (t.length + 1) true t).1 (Nat.lt_succ_self _) h2
  show (Hints.endScan ((Hints.startScan (t.length + 1) true t).1.length + 1)
    true (Hints.startScan (t.length + 1) true t).1).1 = t
  rw [e2, e1]

theorem embeds_changed_false_text {t : List Char}
    (h : (Embeds.processContent t).changed = false) :
    (Embeds.processContent t).text = t := by
  unfold Embeds.processContent at h ⊢
  simp only [Bool.not_eq_false', Bool.and_eq_true, beq_iff_eq] at h
  obtain ⟨h1, h2⟩ := h
  have e1 : (Embeds.blockScan (t.length + 1) true t).1 = t :=
    blockScan_zero _ _ _ (Nat.lt_succ_self _) h1
  have e2 := singleScan_zero ((Embeds.blockScan (t.length + 1) true t).1.length + 1)
    true (Embeds.blockScan (t.length + 1) true t).1 (Nat.lt_succ_self _) h2
  show (Embeds.singleScan ((Embeds.blockScan (t.length + 1) true t).1.length + 1)
    true (Embeds.blockScan (t.length + 1) true t).1).1 = t
  rw [e2, e1]

theorem arcade_changed_false_text {t : List Char}
    (h : (Arcade.processContent t).changed = false) :
    (Arcade.processContent t).text = t := by
  unfold Arcade.processContent at h ⊢
  simp only [Bool.not_eq_false', beq_iff_eq] at h
  show (Arcade.arcadeScan (t.length + 1) true t).1 = t
  exact arcadeScan_zero _ _ _ (Nat.lt_succ_self _) h

theorem images_changed_false_text {t : List Char}
    (h : (Images.processFileContent t).changed = false) :
    (Images.processFileContent t).content = t := by
  unfold Images.processFileContent at h ⊢
  simp only [Bool.not_eq_false', Bool.and_eq_true, beq_iff_eq] at h
  obtain ⟨h1, h2⟩ := h
  have e1 : (Images.figScan (t.length + 1) t).1 = t :=
    figScan_zero _ _ (Nat.lt_succ_self _) h1
  have e2 := imgScan_zero ((Images.figScan (t.length + 1) t).1.length + 1)
    (Images.figScan (t.length + 1) t).1 (Nat.lt_succ_self _) h2
  show (Images.imgScan ((Images.figScan (t.length + 1) t).1.length + 1)
    (Images.figScan (t.length + 1) t).1).1 = t
  rw [e2, e1]

/-- C10: for every transformer and every input text, if the returned
changed flag is false then the returned text is character-for-character
identical to the input text, so the batch runner's skip of unchanged
files never discards a modification. -/
theorem claim_C10 :
    (∀ t : List Char, (Embeds.processContent t).changed = false →
      (Embeds.processContent t).text = t) ∧
    (∀ t : List Char, (Hints.processContent t).changed = false →
      (Hints.processContent t).text = t) ∧
    (∀ t : List Char, (Arcade.processContent t).changed = false →
      (Arcade.processContent t).text = t) ∧
    (∀ t : List Char, (Images.processFileContent t).changed = false →
      (Images.processFileContent t).content = t) :=
  ⟨fun _ h => embeds_changed_false_text h,
   fun _ h => hints_changed_false_text h,
   fun _ h => arcade_changed_false_text h,
   fun _ h => images_changed_false_text h⟩

/-- Witness for C10 at concrete unchanged inputs. -/
theorem claim_C10_witness :
    (Embeds.processContent "plain text".data).text = "plain text".data ∧
    (Hints.processContent "plain text".data).text = "plain text".data ∧
    (Arcade.processContent "plain text".data).text = "plain text".data ∧
    (Images.processFileContent "plain text".data).content = "plain text".data :=
  ⟨claim_C10.1 _ (by decide), claim_C10.2.1 _ (by decide),
   claim_C10.2.2.1 _ (by decide), claim_C10.2.2.2 _ (by decide)⟩

/-- C1 counterexample: for each of the four transformers there is an input
on which the second run reports changed = true, refuting the claimed
idempotence.  The embed input gets its inner standalone embed replaced by
an iframe line, after which the single-line regex matches the whole text
(the class between the braces of the marker crosses the iframe line, which
contains no percent sign); the hint input analogously; the arcade input
captures a url whose text contains a newline and a complete single-quoted
arcade iframe, which the first run splices in as a fresh line; the image
input gets its alt text escaped again on the second pass
(ampersand-amp-semicolon becomes double-escaped). -/
theorem claim_C1_counterexample :
    (Embeds.processContent (Embeds.processContent
      "\x7b% embed url=\"https://a\"\n\x7b% embed url=\"https://b\" %\x7d\n%\x7d".data).text).changed
      = true ∧
    (Hints.processContent (Hints.processContent
      "\x7b% hint a\n\x7b% hint b%\x7d%\x7d".data).text).changed = true ∧
    (Arcade.processContent (Arcade.processContent
      "<iframe src=\"https://app.arcade.software/a>\n<iframe src=\x27https://app.arcade.software/E\x27></iframe>\"></iframe>".data).text).changed
      = true ∧
    (Images.processFileContent (Images.processFileContent
      "<img alt=\"X&Y\">".data).content).changed = true := by
  refine ⟨by decide, by decide, by decide, by decide⟩

/-- C1 amended: a second run yields no further changes whenever the first
run reported changed = false (the text is then unchanged, so the second
run is the same run); in general idempotence fails for all four
transformer kinds, see the counterexample. -/
theorem claim_C1 :
    (∀ t : List Char, (Embeds.processContent t).changed = false →
      Embeds.processContent ((Embeds.processContent t).text)
        = Embeds.processContent t) ∧
    (∀ t : List Char, (Hints.processContent t).changed = false →
      Hints.processContent ((Hints.processContent t).text)
        = Hints.processContent t) ∧
    (∀ t : List Char, (Arcade.processContent t).changed = false →
      Arcade.processContent ((Arcade.processContent t).text)
        = Arcade.processContent t) ∧
    (∀ t : List Char, (Images.processFileContent t).changed = false →
      Images.processFileContent ((Images.processFileContent t).content)
        = Images.processFileContent t) :=
  ⟨fun _ h => by rw [embeds_changed_false_text h],
   fun _ h => by rw [hints_changed_false_text h],
   fun _ h => by rw [arcade_changed_false_text h],
   fun _ h => by rw [images_changed_false_text h]⟩

/-- Witness for the amended C1 at concrete unchanged inputs. -/
theorem claim_C1_witness :
    Embeds.processContent ((Embeds.processContent "no markers here".data).text)
      = Embeds.processContent "no markers here".data ∧
    Hints.processContent ((Hints.processContent "no markers here".data).text)
      = Hints.processContent "no markers here".data ∧
    Arcade.processContent ((Arcade.processContent "no markers here".data).text)
      = Arcade.processContent "no markers here".data ∧
    Images.processFileContent ((Images.processFileContent "no markers here".data).content)
      = Images.processFileContent "no markers here".data :=
  ⟨claim_C1.1 _ (by decide), claim_C1.2.1 _ (by decide),
   claim_C1.2.2.1 _ (by decide), claim_C1.2.2.2 _ (by decide)⟩

/-- C6: an embed directive without a url attribute is not substituted and
not counted; when no embed in the text is substituted at all (both
counters zero), the text is returned byte-for-byte unchanged with
changed = false. -/
theorem claim_C6 :
    ∀ t : List Char, (Embeds.processContent t).blocks = 0 →
      (Embeds.processContent t).singles = 0 →
      (Embeds.processContent t).text = t ∧
      (Embeds.processContent t).changed = false := by
  intro t h1 h2
  unfold Embeds.processContent at h1 h2 ⊢
  simp only at h1 h2
  constructor
  · have e1 : (Embeds.blockScan (t.length + 1) true t).1 = t :=
      blockScan_zero _ _ _ (Nat.lt_succ_self _) h1
    have e2 := singleScan_zero ((Embeds.blockScan (t.length + 1) true t).1.length + 1)
      true (Embeds.blockScan (t.length + 1) true t).1 (Nat.lt_succ_self _) h2
    show (Embeds.singleScan ((Embeds.blockScan (t.length + 1) true t).1.length + 1)
      true (Embeds.blockScan (t.length + 1) true t).1).1 = t
    rw [e2, e1]
  · simp only [h1, h2]
    decide

/-- Witness for C6 at the spec's example input, an embed directive with a
caption but no url. -/
theorem claim_C6_witness :
    (Embeds.processContent "\x7b% embed caption=\"x\" %\x7dbody\x7b% endembed %\x7d".data).text
        = "\x7b% embed caption=\"x\" %\x7dbody\x7b% endembed %\x7d".data ∧
    (Embeds.processContent "\x7b% embed caption=\"x\" %\x7dbody\x7b% endembed %\x7d".data).changed
        = false :=
  claim_C6 _ (by decide) (by decide)

/-- C3 counterexample: on the exact single-line input of the claim, the
embed transformer leaves the text unchanged with changed = false and
blocks = 0, because the block regex requires the end marker to sit at the
start of a line (the `^` anchor before it), and the standalone regex
requires the line to end right after the start marker. -/
theorem claim_C3_counterexample :
    Embeds.processContent
        "\x7b% embed url=\"https://x.com/a\" %\x7dCaption text\x7b% endembed %\x7d".data
      = ⟨"\x7b% embed url=\"https://x.com/a\" %\x7dCaption text\x7b% endembed %\x7d".data,
         false, 0, 0⟩ := by
  decide

/-- C3 amended: with the end marker on its own line (the two-line form of
the block), the embed transformer produces the iframe line with the
claimed src and title and blocks = 1; the single-line form of the claim
is left unchanged (see the counterexample). -/
theorem claim_C3 :
    Embeds.processContent
        "\x7b% embed url=\"https://x.com/a\" %\x7dCaption text\n\x7b% endembed %\x7d".data
      = ⟨"<iframe className=\"w-full aspect-video rounded-xl\" src=\"https://x.com/a\" title=\"Caption text\" frameBorder=\"0\" allow=\"accelerometer; autoplay; clipboard-write; encrypted-media; gyroscope; picture-in-picture\" allowFullScreen></iframe>".data,
         true, 1, 0⟩ := by
  decide

/-- C4 counterexample: normalizing `<img src="a.png" alt="Foo">` with
fallback alt `Foo Bar` does not produce a tag whose alt attribute is
`alt="Foo Bar"`: that string does not even occur in the output, because
the fallback is appended to the existing alt rather than replacing it. -/
theorem claim_C4_counterexample :
    Js.containsSub
      (Images.normalizeImgTag "<img src=\"a.png\" alt=\"Foo\">".data "Foo Bar".data)
      "alt=\"Foo Bar\"".data = false := by
  decide

/-- C4 amended: normalizing `<img src="a.png" alt="Foo">` with the
non-empty fallback alt `Foo Bar` produces a tag whose single alt
attribute is `alt="Foo Foo Bar"`: the fallback is appended to the chosen
alt (space-separated) because the existing alt `Foo` does not contain the
fallback text. -/
theorem claim_C4 :
    Images.normalizeImgTag "<img src=\"a.png\" alt=\"Foo\">".data "Foo Bar".data
      = "<img src=\"a.png\" alt=\"Foo Foo Bar\" />".data := by
  decide

theorem replaceAllChar_append (n : Char) (rep a b : List Char) :
    Js.replaceAllChar n rep (a ++ b)
      = Js.replaceAllChar n rep a ++ Js.replaceAllChar n rep b := by
  induction a with
  | nil => rfl
  | cons c t ih => simp [Js.replaceAllChar, ih]

theorem htmlEntityEscape_cons (c : Char) (t : List Char) :
    Images.htmlEntityEscape (c :: t)
      = Spec.escChar c ++ Images.htmlEntityEscape t := by
  have h1 : Js.replaceAllChar '&' "&amp;".data (c :: t)
      = (if c = '&' then "&amp;".data else [c])
        ++ Js.replaceAllChar '&' "&amp;".data t := rfl
  unfold Images.htmlEntityEscape
  rw [h1, replaceAllChar_append, replaceAllChar_append, replaceAllChar_append]
  by_cases h : c = '&'
  · subst h; rfl
  · by_cases h2 : c = '"'
    · subst h2; rfl
    · by_cases h3 : c = '<'
      · subst h3; rfl
      · by_cases h4 : c = '>'
        · subst h4; rfl
        · simp [Js.replaceAllChar, Spec.escChar, h, h2, h3, h4]

/-- C2 amended: each run of the escaping used for embed src and title
attributes and for img alt attributes applies the entity map to every
character exactly once: the escaping equals the per-character expansion
(ampersand, double quote, less-than, greater-than to their entities, all
other characters unchanged).  A second application escapes again: see the
counterexample, where the ampersand of the entity produced by the first
pass is itself escaped. -/
theorem claim_C2 :
    ∀ value : List Char,
      Images.htmlEntityEscape value = Spec.escape value ∧
      Embeds.htmlEscapeAttribute value = Spec.escape value := by
  intro value
  have h : Images.htmlEntityEscape value = Spec.escape value := by
    induction value with
    | nil => rfl
    | cons c t ih => rw [htmlEntityEscape_cons, ih]; rfl
  exact ⟨h, by
    rw [show Embeds.htmlEscapeAttribute value = Images.htmlEntityEscape value from rfl, h]⟩

/-- C2 counterexample: the alt value `A&B` is escaped to `A&amp;B` by the
first run of the image transformer, and a second run escapes the
ampersand of the entity again, producing the double-escaped `&amp;amp;`
that the claim rules out. -/
theorem claim_C2_counterexample :
    (Images.processFileContent
      (Images.processFileContent "<img alt=\"A&B\">".data).content).content
        = "<img alt=\"A&amp;amp;B\" />".data ∧
    Js.containsSub
      (Images.processFileContent
        (Images.processFileContent "<img alt=\"A&B\">".data).content).content
      "&amp;amp;".data = true := by
  exact ⟨by decide, by decide⟩

theorem collectAlts_eq (raws : List (List Char)) :
    (raws.filterMap (fun v =>
      let w := Js.trim v
      if w.isEmpty then none else some w))
      = (raws.map Js.trim).filter (fun w => !w.isEmpty) := by
  induction raws with
  | nil => rfl
  | cons r t ih =>
    simp only [List.isEmpty_iff] at ih
    by_cases h : Js.trim r = []
    · simp [List.filterMap_cons, List.filter_cons, h, ih]
    · simp [List.filterMap_cons, List.filter_cons, h, ih]

theorem trimR_is_prefix (y : List Char) :
    Js.trimR y ++ (y.reverse.takeWhile Js.isWS).reverse = y := by
  unfold Js.trimR
  rw [← List.reverse_append, List.takeWhile_append_dropWhile, List.reverse_reverse]

theorem trim_head_not_ws {x : List Char} {c : Char} {t : List Char}
    (h : Js.trim x = c :: t) : Js.isWS c = false := by
  unfold Js.trim at h
  cases he : Js.trimL x with
  | nil => rw [he] at h; simp [Js.trimR] at h
  | cons c0 t0 =>
    have hc0 : Js.isWS c0 = false := dropWhile_head_false he
    have hpre := trimR_is_prefix (Js.trimL x)
    rw [he] at hpre h
    rw [h] at hpre
    simp only [List.cons_append] at hpre
    injection hpre with h1 _
    rwa [← h1] at hc0

theorem reverse_trim (x : List Char) :
    (Js.trim x).reverse = (Js.trimL x).reverse.dropWhile Js.isWS := by
  unfold Js.trim Js.trimR
  simp

theorem trim_last_not_ws {x : List Char} {c : Char} {t : List Char}
    (h : (Js.trim x).reverse = c :: t) : Js.isWS c = false := by
  rw [reverse_trim] at h
  exact dropWhile_head_false h

theorem trim_of_ends {c c' : Char} {t t' : List Char} {x : List Char}
    (h1 : x = c :: t) (h2 : x.reverse = c' :: t')
    (hc : Js.isWS c = false) (hc' : Js.isWS c' = false) : Js.trim x = x := by
  have hl : Js.trimL x = x := by
    unfold Js.trimL
    rw [h1]
    simp [List.dropWhile, hc]
  unfold Js.trim Js.trimR
  rw [hl, h2]
  simp only [List.dropWhile, hc', Bool.false_eq_true, if_false]
  rw [← h2, List.reverse_reverse]

theorem trim_append_fixed {a fbt : List Char} {v w : List Char}
    (ha : a = Js.trim v) (hb : fbt = Js.trim w)
    (hna : a.isEmpty = false) (hnb : fbt.isEmpty = false) :
    Js.trim (a ++ ' ' :: fbt) = a ++ ' ' :: fbt := by
  obtain ⟨c, t, hct⟩ : ∃ c t, a = c :: t := by
    cases a with
    | nil => simp at hna
    | cons c t => exact ⟨c, t, rfl⟩
  obtain ⟨c', t', hct'⟩ : ∃ c' t', fbt.reverse = c' :: t' := by
    cases hh : fbt.reverse with
    | nil => rw [List.reverse_eq_nil_iff] at hh; rw [hh] at hnb; simp at hnb
    | cons c' t' => exact ⟨c', t', rfl⟩
  have hc : Js.isWS c = false := trim_head_not_ws (ha.symm.trans hct)
  have hc' : Js.isWS c' = false := by
    have hx : (Js.trim w).reverse = c' :: t' := by rw [← hb, hct']
    exact trim_last_not_ws hx
  apply @trim_of_ends c c' (t ++ ' ' :: fbt) (t' ++ ' ' :: a.reverse) _
  · rw [hct]; simp
  · rw [List.reverse_append]
    simp [hct']
  · exact hc
  · exact hc'

theorem chooseAlt_eq_spec (raws : List (List Char)) (fb : List Char) :
    Images.chooseAlt (raws.filterMap (fun v =>
      let w := Js.trim v
      if w.isEmpty then none else some w)) fb
      = Spec.chosenAlt raws fb := by
  rw [collectAlts_eq]
  unfold Images.chooseAlt Spec.chosenAlt
  cases hl : (raws.map Js.trim).filter (fun w => !w.isEmpty) with
  | nil =>
    by_cases hfb : (Js.trim fb).isEmpty
    · simp [hfb]
    · have hfb' : fb.isEmpty = false := by
        cases fb with
        | nil => simp [Js.trim, Js.trimL, Js.trimR] at hfb
        | cons _ _ => rfl
      simp [hfb, hfb']
  | cons a rest =>
    have hamem : a ∈ (raws.map Js.trim).filter (fun w => !w.isEmpty) := by
      rw [hl]; simp
    have hmem : a ∈ raws.map Js.trim := (List.mem_filter.mp hamem).1
    have hna : a.isEmpty = false := by
      have := (List.mem_filter.mp hamem).2
      simpa using this
    obtain ⟨v, hv, hva⟩ := List.mem_map.mp hmem
    by_cases hfb : (Js.trim fb).isEmpty
    · simp [hfb]
    · have hfb' : fb.isEmpty = false := by
        cases fb with
        | nil => simp [Js.trim, Js.trimL, Js.trimR] at hfb
        | cons _ _ => rfl
      by_cases hcont : Js.containsSub (Images.lowerList a)
          (Images.lowerList (Js.trim fb)) = true
      · simp [hfb, hfb', hna, hcont]
      · simp only [Bool.not_eq_true] at hcont
        simp [hfb, hfb', hna, hcont]
        exact trim_append_fixed hva.symm rfl hna (by simpa using hfb)

/-- C5: for every img tag and fallback alt, image-tag normalization
computes its alt by the claimed rule: the first non-empty trimmed alt
value in order of appearance is chosen; a fallback with non-empty text
becomes the alt when none was found, and is appended (space-separated)
when the found alt does not contain it as a case-insensitive substring.
Stated as: `normalizeImgTag` equals the same pipeline with its chosen-alt
computation replaced by the claim-side rule (`Spec.chosenAlt`, built from
the raw scanned alt values).  "Non-empty fallback" is read, as everywhere
in the source, as "fallback whose trimmed text is non-empty", and the
fallback text appended or adopted is the trimmed fallback. -/
theorem claim_C5 :
    ∀ imgTag fallbackAlt : List Char,
      Images.normalizeImgTag imgTag fallbackAlt
        = Spec.normalizeImgTagAlt imgTag fallbackAlt := by
  intro tag fb
  simp only [Images.normalizeImgTag, Spec.normalizeImgTagAlt, chooseAlt_eq_spec]

theorem ws_of_indent {indent : List Char}
    (h : ∀ c ∈ indent, c = ' ' ∨ c = '\t') : ∀ c ∈ indent, Js.isWS c = true := by
  intro c hc
  rcases h c hc with h' | h' <;> simp [h', Js.isWS]

theorem dropWhile_all_append {p : Char → Bool} {a : List Char}
    (ha : ∀ x ∈ a, p x = true) (bs : List Char) :
    (a ++ bs).dropWhile p = bs.dropWhile p := by
  induction a with
  | nil => rfl
  | cons x xs ih =>
    have hx : p x = true := ha x (by simp)
    simp only [List.cons_append, List.dropWhile_cons, hx, if_true]
    exact ih (fun y hy => ha y (by simp [hy]))

theorem tryHintStart_structured {indent style tail : List Char}
    (hind : ∀ c ∈ indent, Js.isWS c = true)
    (hst : ∀ c ∈ style, c ≠ '%') :
    Hints.tryHintStart (indent ++ "\x7b% hint style=\"".data
        ++ (style ++ ("\" %\x7d".data ++ tail))) = some (indent, tail) := by
  have e : indent ++ "\x7b% hint style=\"".data ++ (style ++ ("\" %\x7d".data ++ tail))
      = indent ++ '\x7b' :: '%' :: ' ' :: 'h' :: 'i' :: 'n' :: 't' :: ' ' :: 's' :: 't' :: 'y' :: 'l' :: 'e' :: '=' :: '"' :: (style ++ '"' :: ' ' :: '%' :: '\x7d' :: tail) := by
    simp
  rw [e]
  have h1 := @takeWhile_append_cons Js.isWS indent '\x7b'
      ('%' :: ' ' :: 'h' :: 'i' :: 'n' :: 't' :: ' ' :: 's' :: 't' :: 'y' :: 'l' :: 'e' :: '=' :: '"' :: (style ++ '"' :: ' ' :: '%' :: '\x7d' :: tail))
      hind (by decide)
  unfold Hints.tryHintStart
  simp only [h1.1, h1.2]
  rw [show List.dropWhile Js.isWS (' ' :: 'h' :: 'i' :: 'n' :: 't' :: ' ' :: 's' :: 't' :: 'y' :: 'l' :: 'e' :: '=' :: '"' :: (style ++ '"' :: ' ' :: '%' :: '\x7d' :: tail)) = 'h' :: 'i' :: 'n' :: 't' :: ' ' :: 's' :: 't' :: 'y' :: 'l' :: 'e' :: '=' :: '"' :: (style ++ '"' :: ' ' :: '%' :: '\x7d' :: tail) from rfl]
  rw [show Js.matchStr ['h', 'i', 'n', 't'] ('h' :: 'i' :: 'n' :: 't' :: ' ' :: 's' :: 't' :: 'y' :: 'l' :: 'e' :: '=' :: '"' :: (style ++ '"' :: ' ' :: '%' :: '\x7d' :: tail)) = some (' ' :: 's' :: 't' :: 'y' :: 'l' :: 'e' :: '=' :: '"' :: (style ++ '"' :: ' ' :: '%' :: '\x7d' :: tail)) from rfl]
  simp only [Option.some.injEq]
  rw [show Hints.tryHintStart.boundaryOk (' ' :: 's' :: 't' :: 'y' :: 'l' :: 'e' :: '=' :: '"' :: (style ++ '"' :: ' ' :: '%' :: '\x7d' :: tail)) = true from rfl]
  rw [if_pos rfl]
  rw [show List.dropWhile (fun c => decide (c ≠ '%')) (' ' :: 's' :: 't' :: 'y' :: 'l' :: 'e' :: '=' :: '"' :: (style ++ '"' :: ' ' :: '%' :: '\x7d' :: tail)) = List.dropWhile (fun c => decide (c ≠ '%')) (style ++ ('"' :: ' ' :: '%' :: '\x7d' :: tail)) from rfl]
  rw [dropWhile_all_append (fun x hx => by simp [hst x hx])]
  rfl


theorem tryHintStart_endtag_none {indent2 : List Char}
    (hind : ∀ c ∈ indent2, Js.isWS c = true) :
    Hints.tryHintStart (indent2 ++ "\x7b% endhint %\x7d".data) = none := by
  have e : indent2 ++ "\x7b% endhint %\x7d".data
      = indent2 ++ '\x7b' :: '%' :: ' ' :: 'e' :: 'n' :: 'd' :: 'h' :: 'i' :: 'n' :: 't' :: ' ' :: '%' :: '\x7d' :: [] := by simp
  rw [e]
  have h1 := @takeWhile_append_cons Js.isWS indent2 '\x7b'
      ('%' :: ' ' :: 'e' :: 'n' :: 'd' :: 'h' :: 'i' :: 'n' :: 't' :: ' ' :: '%' :: '\x7d' :: []) hind (by decide)
  unfold Hints.tryHintStart
  simp only [h1.1, h1.2]
  rfl

theorem tryHintEnd_structured {indent2 : List Char}
    (hind : ∀ c ∈ indent2, Js.isWS c = true) :
    Hints.tryHintEnd (indent2 ++ "\x7b% endhint %\x7d".data) = some (indent2, []) := by
  have e : indent2 ++ "\x7b% endhint %\x7d".data
      = indent2 ++ '\x7b' :: '%' :: ' ' :: 'e' :: 'n' :: 'd' :: 'h' :: 'i' :: 'n' :: 't' :: ' ' :: '%' :: '\x7d' :: [] := by simp
  rw [e]
  have h1 := @takeWhile_append_cons Js.isWS indent2 '\x7b'
      ('%' :: ' ' :: 'e' :: 'n' :: 'd' :: 'h' :: 'i' :: 'n' :: 't' :: ' ' :: '%' :: '\x7d' :: []) hind (by decide)
  unfold Hints.tryHintEnd
  simp only [h1.1, h1.2]
  rfl

theorem tryHintEnd_lt_none {indent X : List Char}
    (hind : ∀ c ∈ indent, Js.isWS c = true) :
    Hints.tryHintEnd (indent ++ '<' :: X) = none := by
  have h1 := @takeWhile_append_cons Js.isWS indent '<' X hind (by decide)
  unfold Hints.tryHintEnd
  simp only [h1.1, h1.2]
  split
  next heq => simp at heq
  next => rfl

theorem startScan_false_nonl : ∀ (fuel : Nat) (cs : List Char),
    (∀ c ∈ cs, c ≠ '\n') → Hints.startScan fuel false cs = (cs, 0) := by
  intro fuel
  induction fuel with
  | zero => intro cs _; rfl
  | succ fuel ih =>
    intro cs h
    cases cs with
    | nil => rfl
    | cons c t =>
      have hc : c ≠ '\n' := h c (by simp)
      rw [startScan_false_cons, decide_eq_false hc,
          ih t (fun x hx => h x (by simp [hx]))]

theorem startScan_true_nonl {fuel : Nat} {cs : List Char}
    (h : ∀ c ∈ cs, c ≠ '\n') (hm : Hints.tryHintStart cs = none) :
    Hints.startScan fuel true cs = (cs, 0) := by
  cases fuel with
  | zero => rfl
  | succ fuel =>
    cases cs with
    | nil => rfl
    | cons c t =>
      have hc : c ≠ '\n' := h c (by simp)
      rw [startScan_true_nomatch fuel hm, decide_eq_false hc,
          startScan_false_nonl fuel t (fun x hx => h x (by simp [hx]))]

theorem startScan_false_nl {fuel : Nat} {cs : List Char}
    (h : ∀ c ∈ cs, c ≠ '\n') (hm : Hints.tryHintStart cs = none) :
    Hints.startScan fuel false ('\n' :: cs) = ('\n' :: cs, 0) := by
  cases fuel with
  | zero => rfl
  | succ fuel =>
    rw [startScan_false_cons, show (decide ('\n' = '\n')) = true from rfl,
        startScan_true_nonl h hm]

theorem startScan_true_match_any {cs ind rest : List Char} (fuel : Nat)
    (hm : Hints.tryHintStart cs = some (ind, rest)) :
    Hints.startScan (fuel + 1) true cs
      = (ind ++ "<Note>".data ++ (Hints.startScan fuel false rest).1,
         (Hints.startScan fuel false rest).2 + 1) := by
  cases cs with
  | nil =>
    rw [show Hints.tryHintStart [] = none from rfl] at hm
    exact Option.noConfusion hm
  | cons c t => exact startScan_true_match fuel hm

theorem endScan_true_match_any {cs ind rest : List Char} (fuel : Nat)
    (hm : Hints.tryHintEnd cs = some (ind, rest)) :
    Hints.endScan (fuel + 1) true cs
      = (ind ++ "</Note>".data ++ (Hints.endScan fuel false rest).1,
         (Hints.endScan fuel false rest).2 + 1) := by
  cases cs with
  | nil =>
    rw [show Hints.tryHintEnd [] = none from rfl] at hm
    exact Option.noConfusion hm
  | cons c t => exact endScan_true_match fuel hm

theorem endScan_false_nil (fuel : Nat) : Hints.endScan fuel false [] = ([], 0) := by
  cases fuel <;> rfl

theorem endScan_false_shift : ∀ (pre : List Char), (∀ c ∈ pre, c ≠ '\n') →
    ∀ (fuel : Nat) (rest : List Char),
    Hints.endScan (pre.length + fuel) false (pre ++ rest)
      = (pre ++ (Hints.endScan fuel false rest).1,
         (Hints.endScan fuel false rest).2) := by
  intro pre
  induction pre with
  | nil => intro _ fuel rest; simp
  | cons x xs ih =>
    intro h fuel rest
    have hx : x ≠ '\n' := h x (by simp)
    have e : (x :: xs).length + fuel = (xs.length + fuel) + 1 := by
      simp [List.length_cons]; omega
    rw [e, List.cons_append, endScan_false_cons, decide_eq_false hx,
        ih (fun c hc => h c (by simp [hc])) fuel rest]
    simp

theorem endScan_true_shift (pre : List Char) (hne : pre ≠ [])
    (hp : ∀ c ∈ pre, c ≠ '\n') (fuel : Nat) (rest : List Char)
    (hm : Hints.tryHintEnd (pre ++ rest) = none) :
    Hints.endScan (pre.length + fuel) true (pre ++ rest)
      = (pre ++ (Hints.endScan fuel false rest).1,
         (Hints.endScan fuel false rest).2) := by
  cases pre with
  | nil => exact absurd rfl hne
  | cons x xs =>
    have hx : x ≠ '\n' := hp x (by simp)
    have e : (x :: xs).length + fuel = (xs.length + fuel) + 1 := by
      simp [List.length_cons]; omega
    have hm' : Hints.tryHintEnd (x :: (xs ++ rest)) = none := hm
    rw [e, List.cons_append, endScan_true_nomatch _ hm', decide_eq_false hx,
        endScan_false_shift xs (fun c hc => hp c (by simp [hc])) fuel rest]
    simp

theorem hints_processContent_eq {text t1 t2 : List Char} {n1 n2 : Nat}
    (h1 : Hints.startScan (text.length + 1) true text = (t1, n1))
    (h2 : Hints.endScan (t1.length + 1) true t1 = (t2, n2)) :
    Hints.processContent text
      = { text := t2, changed := !(n1 == 0 && n2 == 0),
          startCount := n1, endCount := n2 } := by
  unfold Hints.processContent
  simp only [h1, h2]

/-- C7 counterexample: the hint start marker with style value `50%` (a value
containing a percent sign) is not replaced at all, contradicting the
claim's "any style attribute value / independently of the style value's
content". -/
theorem claim_C7_counterexample :
    Hints.processContent "\x7b% hint style=\"50%\" %\x7d".data
      = { text := "\x7b% hint style=\"50%\" %\x7d".data,
          changed := false, startCount := 0, endCount := 0 } := by decide

/-- C7 amended: for a hint start marker whose style value contains no `%`,
on its own line above a line-anchored end marker, the transformer replaces
the start marker with `<Note>` and the end marker with `</Note>`, each
preserving its leading indentation. -/
theorem claim_C7 :
    ∀ indent indent2 style : List Char,
      (∀ c ∈ indent, c = ' ' ∨ c = '\t') →
      (∀ c ∈ indent2, c = ' ' ∨ c = '\t') →
      (∀ c ∈ style, c ≠ '%') →
      Hints.processContent (indent ++ "\x7b% hint style=\"".data
          ++ (style ++ ("\" %\x7d".data
          ++ ('\n' :: (indent2 ++ "\x7b% endhint %\x7d".data)))))
        = { text := indent ++ "<Note>".data
              ++ ('\n' :: (indent2 ++ "</Note>".data)),
            changed := true, startCount := 1, endCount := 1 } := by
  intro indent indent2 style hind hind2 hst
  have hindWS := ws_of_indent hind
  have hind2WS := ws_of_indent hind2
  have hnlEnd : ∀ c ∈ "\x7b% endhint %\x7d".data, c ≠ '\n' := by decide
  have hnl2 : ∀ c ∈ indent2 ++ "\x7b% endhint %\x7d".data, c ≠ '\n' := by
    intro c hc
    rcases List.mem_append.mp hc with h | h
    · rcases hind2 c h with h' | h' <;> simp [h']
    · exact hnlEnd c h
  have hm1 := @tryHintStart_structured indent style
      ('\n' :: (indent2 ++ "\x7b% endhint %\x7d".data)) hindWS hst
  have hm2 : Hints.tryHintStart (indent2 ++ "\x7b% endhint %\x7d".data) = none :=
    tryHintStart_endtag_none hind2WS
  have hm3 : Hints.tryHintEnd (indent2 ++ "\x7b% endhint %\x7d".data)
      = some (indent2, []) := tryHintEnd_structured hind2WS
  have e1 : Hints.startScan ((indent ++ "\x7b% hint style=\"".data
        ++ (style ++ ("\" %\x7d".data
        ++ ('\n' :: (indent2 ++ "\x7b% endhint %\x7d".data))))).length + 1) true
        (indent ++ "\x7b% hint style=\"".data
        ++ (style ++ ("\" %\x7d".data
        ++ ('\n' :: (indent2 ++ "\x7b% endhint %\x7d".data)))))
      = (indent ++ "<Note>".data
          ++ ('\n' :: (indent2 ++ "\x7b% endhint %\x7d".data)), 1) := by
    rw [startScan_true_match_any _ hm1, startScan_false_nl hnl2 hm2]
  have hm4 : Hints.tryHintEnd ((indent ++ "<Note>".data)
      ++ ('\n' :: (indent2 ++ "\x7b% endhint %\x7d".data))) = none := by
    have e : (indent ++ "<Note>".data)
        ++ ('\n' :: (indent2 ++ "\x7b% endhint %\x7d".data))
        = indent ++ '<' :: ("Note>".data
            ++ ('\n' :: (indent2 ++ "\x7b% endhint %\x7d".data))) := by simp
    rw [e]
    exact tryHintEnd_lt_none hindWS
  have hnlNote : ∀ c ∈ "<Note>".data, c ≠ '\n' := by decide
  have hpre_nl : ∀ c ∈ indent ++ "<Note>".data, c ≠ '\n' := by
    intro c hc
    rcases List.mem_append.mp hc with h | h
    · rcases hind c h with h' | h' <;> simp [h']
    · exact hnlNote c h
  have hpre_ne : indent ++ "<Note>".data ≠ [] := by simp
  have eTail : Hints.endScan ((indent2 ++ "\x7b% endhint %\x7d".data).length + 2)
      false ('\n' :: (indent2 ++ "\x7b% endhint %\x7d".data))
      = ('\n' :: (indent2 ++ "</Note>".data), 1) := by
    rw [show (indent2 ++ "\x7b% endhint %\x7d".data).length + 2
        = ((indent2 ++ "\x7b% endhint %\x7d".data).length + 1) + 1 from rfl,
      endScan_false_cons, show (decide ('\n' = '\n')) = true from rfl,
      endScan_true_match_any _ hm3, endScan_false_nil]
    simp
  have e2 : Hints.endScan ((indent ++ "<Note>".data
        ++ ('\n' :: (indent2 ++ "\x7b% endhint %\x7d".data))).length + 1) true
        (indent ++ "<Note>".data
        ++ ('\n' :: (indent2 ++ "\x7b% endhint %\x7d".data)))
      = (indent ++ "<Note>".data ++ ('\n' :: (indent2 ++ "</Note>".data)), 1) := by
    have hlen : (indent ++ "<Note>".data
          ++ ('\n' :: (indent2 ++ "\x7b% endhint %\x7d".data))).length + 1
        = (indent ++ "<Note>".data).length
            + ((indent2 ++ "\x7b% endhint %\x7d".data).length + 2) := by
      simp only [List.length_append, List.length_cons]
      omega
    rw [hlen,
        endScan_true_shift _ hpre_ne hpre_nl _ _ hm4, eTail]
  rw [hints_processContent_eq e1 e2]
  rfl

/-- Witness for the amended C7 at a concrete hint block with two-space
indentation and style value `warning`. -/
theorem claim_C7_witness :
    Hints.processContent ("  ".data ++ "\x7b% hint style=\"".data
        ++ ("warning".data ++ ("\" %\x7d".data
        ++ ('\n' :: ([] ++ "\x7b% endhint %\x7d".data)))))
      = { text := "  ".data ++ "<Note>".data ++ ('\n' :: ([] ++ "</Note>".data)),
          changed := true, startCount := 1, endCount := 1 } :=
  claim_C7 "  ".data [] "warning".data (by decide) (by decide) (by decide)

theorem tailLoop_close {rest : List Char}
    (hlt : ∀ c ∈ rest, Js.lowerChar c ≠ '<') :
    Arcade.tailLoop (rest ++ "></iframe>".data) = some [] := by
  induction rest with
  | nil => decide
  | cons c t ih =>
    have hc : Js.lowerChar c ≠ '<' := hlt c (by simp)
    rw [List.cons_append]
    have hm : Js.matchStrCI "</iframe>".data (c :: (t ++ "></iframe>".data)) = none := by
      rw [show "</iframe>".data = '<' :: "/iframe>".data from rfl]
      unfold Js.matchStrCI
      simp [hc]
    unfold Arcade.tailLoop
    rw [hm]
    exact ih (fun x hx => hlt x (by simp [hx]))

theorem urlHead_arcade (Y : List Char) :
    Arcade.urlHead (['h', 't', 't', 'p', 's', ':', '/', '/', 'a', 'p', 'p', '.', 'a', 'r', 'c', 'a', 'd', 'e', '.', 's', 'o', 'f', 't', 'w', 'a', 'r', 'e', '/'] ++ Y)
      = some (['h', 't', 't', 'p', 's', ':', '/', '/', 'a', 'p', 'p', '.', 'a', 'r', 'c', 'a', 'd', 'e', '.', 's', 'o', 'f', 't', 'w', 'a', 'r', 'e', '/'], Y) := by
  have e1 : ['h', 't', 't', 'p', 's', ':', '/', '/', 'a', 'p', 'p', '.', 'a', 'r', 'c', 'a', 'd', 'e', '.', 's', 'o', 'f', 't', 'w', 'a', 'r', 'e', '/'] ++ Y
      = "http".data ++ ('s' :: ("://app.arcade.software/".data ++ Y)) := by simp
  have h1 : Js.matchStrCI "http".data (['h', 't', 't', 'p', 's', ':', '/', '/', 'a', 'p', 'p', '.', 'a', 'r', 'c', 'a', 'd', 'e', '.', 's', 'o', 'f', 't', 'w', 'a', 'r', 'e', '/'] ++ Y)
      = some ('s' :: ("://app.arcade.software/".data ++ Y)) := by
    rw [e1]
    exact matchStrCI_of_map_lower (by decide) _
  have h2 : Js.matchStrCI "://app.arcade.software/".data
      ("://app.arcade.software/".data ++ Y) = some Y :=
    matchStrCI_of_map_lower (by decide) _
  unfold Arcade.urlHead
  simp only [h1]
  rw [if_pos (show Js.lowerChar 's' = 's' from rfl)]
  simp only [h2]
  rw [List.take_left' (by decide)]

theorem capLoop_arcade {rest : List Char} (p : Char) (ps : List Char)
    (hlt : ∀ c ∈ rest, Js.lowerChar c ≠ '<') :
    Arcade.capLoop ((p :: ps) ++ '"' :: (rest ++ ['>', '<', '/', 'i', 'f', 'r', 'a', 'm', 'e', '>'])) (ps.length + 1)
      = some (p :: ps, []) := by
  have hdrop : ((p :: ps) ++ '"' :: (rest ++ ['>', '<', '/', 'i', 'f', 'r', 'a', 'm', 'e', '>'])).drop (ps.length + 1)
      = '"' :: (rest ++ ['>', '<', '/', 'i', 'f', 'r', 'a', 'm', 'e', '>']) := List.drop_left' (by simp)
  unfold Arcade.capLoop
  simp only [hdrop]
  rw [if_pos (by decide)]
  rw [show Arcade.tailLoop (rest ++ ['>', '<', '/', 'i', 'f', 'r', 'a', 'm', 'e', '>']) = some [] from tailLoop_close hlt]
  rw [List.take_left' (by simp)]

theorem tryFromSrc_arcade {path rest : List Char} (hpne : path ≠ [])
    (hpq : ∀ c ∈ path, c ≠ '"')
    (hlt : ∀ c ∈ rest, Js.lowerChar c ≠ '<') :
    Arcade.tryFromSrc (' ' :: ("src=\"".data ++ ("https://app.arcade.software/".data
        ++ (path ++ '"' :: (rest ++ "></iframe>".data)))))
      = some ("https://app.arcade.software/".data ++ path, []) := by
  obtain ⟨p, ps, rfl⟩ : ∃ p ps, path = p :: ps := by
    cases path with
    | nil => exact absurd rfl hpne
    | cons p ps => exact ⟨p, ps, rfl⟩
  have h1 : Js.matchStrCI "src=".data ("src=\"".data
      ++ ("https://app.arcade.software/".data
        ++ ((p :: ps) ++ '"' :: (rest ++ "></iframe>".data))))
      = some ('"' :: ("https://app.arcade.software/".data
        ++ ((p :: ps) ++ '"' :: (rest ++ "></iframe>".data)))) := by
    rw [show "src=\"".data ++ ("https://app.arcade.software/".data
        ++ ((p :: ps) ++ '"' :: (rest ++ "></iframe>".data)))
      = "src=".data ++ ('"' :: ("https://app.arcade.software/".data
        ++ ((p :: ps) ++ '"' :: (rest ++ "></iframe>".data)))) from by simp]
    exact matchStrCI_of_map_lower (by decide) _
  have hTake : ((p :: ps) ++ '"' :: (rest ++ ['>', '<', '/', 'i', 'f', 'r', 'a', 'm', 'e', '>'])).takeWhile
      (fun c => decide (c ≠ '"')) = p :: ps :=
    (takeWhile_append_cons (fun x hx => by simp [hpq x hx]) (by decide)).1
  unfold Arcade.tryFromSrc
  simp only [h1]
  rw [if_pos (show Js.isWS ' ' = true from rfl)]
  rw [if_pos (by simp)]
  simp only [urlHead_arcade]
  rw [hTake, show (p :: ps).length = ps.length + 1 from by simp]
  rw [capLoop_arcade p ps hlt]

theorem tryFromSrc_none_head {c : Char} {t : List Char}
    (hc : Js.isWS c = false) : Arcade.tryFromSrc (c :: t) = none := by
  unfold Arcade.tryFromSrc
  simp [hc]

theorem containsSub_tail_false {c : Char} {t pat : List Char}
    (h : Js.containsSub (c :: t) pat = false) : Js.containsSub t pat = false := by
  unfold Js.containsSub at h
  split at h
  · exact absurd h (by simp)
  · exact h

theorem isPrefixOf_self_append (pat z : List Char) :
    pat.isPrefixOf (pat ++ z) = true := by
  induction pat with
  | nil => simp [List.isPrefixOf]
  | cons p ps ih => simp [List.isPrefixOf, ih]

theorem tryFromSrc_suffix_none_append {a rest' : List Char}
    (ha : ∀ c ∈ a, Js.isWS c = false)
    (hr : ∀ s, s <:+ rest' → Arcade.tryFromSrc s = none) :
    ∀ s, s <:+ (a ++ rest') → Arcade.tryFromSrc s = none := by
  induction a with
  | nil => simpa using hr
  | cons x xs ih =>
    intro s hs
    rw [List.cons_append] at hs
    rcases List.suffix_cons_iff.mp hs with h | h
    · subst h
      exact tryFromSrc_none_head (ha x (by simp))
    · exact ih (fun c hc => ha c (by simp [hc])) s h

theorem tryFromSrc_lit10_none :
    ∀ s, s <:+ (['>', '<', '/', 'i', 'f', 'r', 'a', 'm', 'e', '>'] : List Char) →
      Arcade.tryFromSrc s = none := by
  intro s hs
  rw [← List.mem_tails] at hs
  fin_cases hs <;> decide

theorem tryFromSrc_rest_none {rest : List Char}
    (hns : Js.containsSub (Images.lowerList rest) "src=".data = false) :
    ∀ s, s <:+ (rest ++ ['>', '<', '/', 'i', 'f', 'r', 'a', 'm', 'e', '>']) →
      Arcade.tryFromSrc s = none := by
  induction rest with
  | nil => simpa using tryFromSrc_lit10_none
  | cons x xs ih =>
    intro s hs
    rw [List.cons_append] at hs
    rcases List.suffix_cons_iff.mp hs with h | h
    · subst h
      by_cases hws : Js.isWS x = true
      · have hm : Js.matchStrCI "src=".data
            (xs ++ ['>', '<', '/', 'i', 'f', 'r', 'a', 'm', 'e', '>']) = none := by
          cases hmm : Js.matchStrCI "src=".data
              (xs ++ ['>', '<', '/', 'i', 'f', 'r', 'a', 'm', 'e', '>']) with
          | none => rfl
          | some r1 =>
            exfalso
            have heq := matchStrCI_map_lower hmm
            rw [List.map_append] at heq
            rw [show (['>', '<', '/', 'i', 'f', 'r', 'a', 'm', 'e', '>'] : List Char).map
                Js.lowerChar = ['>', '<', '/', 'i', 'f', 'r', 'a', 'm', 'e', '>'] from by decide] at heq
            rcases List.append_eq_append_iff.mp heq with ⟨a', h1, h2⟩ | ⟨c', h1, h2⟩
            · rcases a' with _ | ⟨b, bs⟩
              · have hA : Images.lowerList xs = "src=".data := by
                  simpa [Images.lowerList] using h1.symm
                have hcs : Js.containsSub (Images.lowerList (x :: xs)) "src=".data
                    = true := by
                  apply containsSub_of_parts
                      (u := [Js.lowerChar x]) (v := Images.lowerList xs)
                  · simp [Images.lowerList]
                  · rw [hA]
                    have := isPrefixOf_self_append "src=".data []
                    simpa using this
                rw [hns] at hcs
                exact Bool.noConfusion hcs
              · rw [List.cons_append] at h2
                injection h2 with h2a h2b
                have hmem : b ∈ ("src=".data : List Char) := by
                  rw [h1]
                  simp
                rw [← h2a] at hmem
                exact absurd hmem (by decide)
            · have hcs : Js.containsSub (Images.lowerList (x :: xs)) "src=".data
                  = true := by
                apply containsSub_of_parts
                    (u := [Js.lowerChar x]) (v := Images.lowerList xs)
                · simp [Images.lowerList]
                · rw [show Images.lowerList xs = List.map Js.lowerChar xs from rfl, h1]
                  exact isPrefixOf_self_append _ _
              rw [hns] at hcs
              exact Bool.noConfusion hcs
        unfold Arcade.tryFromSrc
        simp [hws, hm]
      · exact tryFromSrc_none_head (by simpa using hws)
    · have hns' : Js.containsSub (Images.lowerList xs) "src=".data = false :=
        containsSub_tail_false (by simpa [Images.lowerList] using hns)
      exact ih hns' s h

theorem kLoop_of_drops_none {r : List Char} (k : Nat)
    (hnone : ∀ s, s <:+ r.drop 1 → Arcade.tryFromSrc s = none) :
    Arcade.kLoop r k = Arcade.tryFromSrc r := by
  induction k with
  | zero => rfl
  | succ k ih =>
    have hd : Arcade.tryFromSrc (r.drop (k + 1)) = none := by
      apply hnone
      have e : (r.drop 1).drop k = r.drop (k + 1) := by
        rw [List.drop_drop, Nat.add_comm]
      rw [← e]
      exact List.drop_suffix _ _
    simp only [Arcade.kLoop, hd]
    exact ih

theorem tryFromSrc_quoted_none {rest : List Char}
    (hns : Js.containsSub (Images.lowerList rest) "src=".data = false) :
    ∀ s, s <:+ ('"' :: (rest ++ ['>', '<', '/', 'i', 'f', 'r', 'a', 'm', 'e', '>'])) →
      Arcade.tryFromSrc s = none := by
  intro s hs
  rcases List.suffix_cons_iff.mp hs with h | h
  · subst h
    exact tryFromSrc_none_head (by decide)
  · exact tryFromSrc_rest_none hns s h

theorem tryArcade_structured {indent path rest : List Char}
    (hind : ∀ c ∈ indent, Js.isWS c = true)
    (hpne : path ≠ [])
    (hpws : ∀ c ∈ path, Js.isWS c = false)
    (hpq : ∀ c ∈ path, c ≠ '"')
    (hns : Js.containsSub (Images.lowerList rest) "src=".data = false)
    (hlt : ∀ c ∈ rest, Js.lowerChar c ≠ '<') :
    Arcade.tryArcade (indent ++ "<iframe src=\"https://app.arcade.software/".data
        ++ (path ++ '"' :: (rest ++ "></iframe>".data)))
      = some (indent, "https://app.arcade.software/".data ++ path, []) := by
  have e : indent ++ "<iframe src=\"https://app.arcade.software/".data
      ++ (path ++ '"' :: (rest ++ "></iframe>".data))
      = indent ++ '<' :: 'i' :: 'f' :: 'r' :: 'a' :: 'm' :: 'e' :: ' ' :: 's' :: 'r' :: 'c' :: '=' :: '"' :: 'h' :: 't' :: 't' :: 'p' :: 's' :: ':' :: '/' :: '/' :: 'a' :: 'p' :: 'p' :: '.' :: 'a' :: 'r' :: 'c' :: 'a' :: 'd' :: 'e' :: '.' :: 's' :: 'o' :: 'f' :: 't' :: 'w' :: 'a' :: 'r' :: 'e' :: '/' :: (path ++ '"' :: (rest ++ ['>', '<', '/', 'i', 'f', 'r', 'a', 'm', 'e', '>'])) := by simp
  rw [e]
  have h1 := @takeWhile_append_cons Js.isWS indent '<'
      ('i' :: 'f' :: 'r' :: 'a' :: 'm' :: 'e' :: ' ' :: 's' :: 'r' :: 'c' :: '=' :: '"' :: 'h' :: 't' :: 't' :: 'p' :: 's' :: ':' :: '/' :: '/' :: 'a' :: 'p' :: 'p' :: '.' :: 'a' :: 'r' :: 'c' :: 'a' :: 'd' :: 'e' :: '.' :: 's' :: 'o' :: 'f' :: 't' :: 'w' :: 'a' :: 'r' :: 'e' :: '/' :: (path ++ '"' :: (rest ++ ['>', '<', '/', 'i', 'f', 'r', 'a', 'm', 'e', '>']))) hind (by decide)
  have h2 : Js.matchStrCI ['<', 'i', 'f', 'r', 'a', 'm', 'e']
      ('<' :: 'i' :: 'f' :: 'r' :: 'a' :: 'm' :: 'e' :: ' ' :: 's' :: 'r' :: 'c' :: '=' :: '"' :: 'h' :: 't' :: 't' :: 'p' :: 's' :: ':' :: '/' :: '/' :: 'a' :: 'p' :: 'p' :: '.' :: 'a' :: 'r' :: 'c' :: 'a' :: 'd' :: 'e' :: '.' :: 's' :: 'o' :: 'f' :: 't' :: 'w' :: 'a' :: 'r' :: 'e' :: '/' :: (path ++ '"' :: (rest ++ ['>', '<', '/', 'i', 'f', 'r', 'a', 'm', 'e', '>'])))
      = some (' ' :: 's' :: 'r' :: 'c' :: '=' :: '"' :: 'h' :: 't' :: 't' :: 'p' :: 's' :: ':' :: '/' :: '/' :: 'a' :: 'p' :: 'p' :: '.' :: 'a' :: 'r' :: 'c' :: 'a' :: 'd' :: 'e' :: '.' :: 's' :: 'o' :: 'f' :: 't' :: 'w' :: 'a' :: 'r' :: 'e' :: '/' :: (path ++ '"' :: (rest ++ ['>', '<', '/', 'i', 'f', 'r', 'a', 'm', 'e', '>']))) := by
    rw [show '<' :: 'i' :: 'f' :: 'r' :: 'a' :: 'm' :: 'e' :: ' ' :: 's' :: 'r' :: 'c' :: '=' :: '"' :: 'h' :: 't' :: 't' :: 'p' :: 's' :: ':' :: '/' :: '/' :: 'a' :: 'p' :: 'p' :: '.' :: 'a' :: 'r' :: 'c' :: 'a' :: 'd' :: 'e' :: '.' :: 's' :: 'o' :: 'f' :: 't' :: 'w' :: 'a' :: 'r' :: 'e' :: '/' :: (path ++ '"' :: (rest ++ ['>', '<', '/', 'i', 'f', 'r', 'a', 'm', 'e', '>']))
      = ['<', 'i', 'f', 'r', 'a', 'm', 'e'] ++ (' ' :: 's' :: 'r' :: 'c' :: '=' :: '"' :: 'h' :: 't' :: 't' :: 'p' :: 's' :: ':' :: '/' :: '/' :: 'a' :: 'p' :: 'p' :: '.' :: 'a' :: 'r' :: 'c' :: 'a' :: 'd' :: 'e' :: '.' :: 's' :: 'o' :: 'f' :: 't' :: 'w' :: 'a' :: 'r' :: 'e' :: '/' :: (path ++ '"' :: (rest ++ ['>', '<', '/', 'i', 'f', 'r', 'a', 'm', 'e', '>']))) from by simp]
    exact matchStrCI_of_map_lower (by decide) _
  have hdrop1 : (" src=\"https://app.arcade.software/".data
      ++ (path ++ '"' :: (rest ++ "></iframe>".data))).drop 1
      = "src=\"https://app.arcade.software/".data
          ++ (path ++ '"' :: (rest ++ "></iframe>".data)) := by simp
  have hnone : ∀ s, s <:+ (" src=\"https://app.arcade.software/".data
      ++ (path ++ '"' :: (rest ++ "></iframe>".data))).drop 1 →
      Arcade.tryFromSrc s = none := by
    rw [hdrop1]
    have hlit : ∀ c ∈ ("src=\"https://app.arcade.software/".data : List Char),
        Js.isWS c = false := by decide
    apply tryFromSrc_suffix_none_append hlit
    apply tryFromSrc_suffix_none_append hpws
    intro s hs
    apply tryFromSrc_quoted_none hns
    simpa using hs
  have hk : ∀ k, Arcade.kLoop (' ' :: 's' :: 'r' :: 'c' :: '=' :: '"' :: 'h' :: 't' :: 't' :: 'p' :: 's' :: ':' :: '/' :: '/' :: 'a' :: 'p' :: 'p' :: '.' :: 'a' :: 'r' :: 'c' :: 'a' :: 'd' :: 'e' :: '.' :: 's' :: 'o' :: 'f' :: 't' :: 'w' :: 'a' :: 'r' :: 'e' :: '/' :: (path ++ '"' :: (rest ++ ['>', '<', '/', 'i', 'f', 'r', 'a', 'm', 'e', '>']))) k
      = Arcade.tryFromSrc (' ' :: 's' :: 'r' :: 'c' :: '=' :: '"' :: 'h' :: 't' :: 't' :: 'p' :: 's' :: ':' :: '/' :: '/' :: 'a' :: 'p' :: 'p' :: '.' :: 'a' :: 'r' :: 'c' :: 'a' :: 'd' :: 'e' :: '.' :: 's' :: 'o' :: 'f' :: 't' :: 'w' :: 'a' :: 'r' :: 'e' :: '/' :: (path ++ '"' :: (rest ++ ['>', '<', '/', 'i', 'f', 'r', 'a', 'm', 'e', '>']))) :=
    fun k => kLoop_of_drops_none k hnone
  have hsrc : Arcade.tryFromSrc (' ' :: 's' :: 'r' :: 'c' :: '=' :: '"' :: 'h' :: 't' :: 't' :: 'p' :: 's' :: ':' :: '/' :: '/' :: 'a' :: 'p' :: 'p' :: '.' :: 'a' :: 'r' :: 'c' :: 'a' :: 'd' :: 'e' :: '.' :: 's' :: 'o' :: 'f' :: 't' :: 'w' :: 'a' :: 'r' :: 'e' :: '/' :: (path ++ '"' :: (rest ++ ['>', '<', '/', 'i', 'f', 'r', 'a', 'm', 'e', '>'])))
      = some (['h', 't', 't', 'p', 's', ':', '/', '/', 'a', 'p', 'p', '.', 'a', 'r', 'c', 'a', 'd', 'e', '.', 's', 'o', 'f', 't', 'w', 'a', 'r', 'e', '/'] ++ path, []) := by
    rw [show (' ' :: 's' :: 'r' :: 'c' :: '=' :: '"' :: 'h' :: 't' :: 't' :: 'p' :: 's' :: ':' :: '/' :: '/' :: 'a' :: 'p' :: 'p' :: '.' :: 'a' :: 'r' :: 'c' :: 'a' :: 'd' :: 'e' :: '.' :: 's' :: 'o' :: 'f' :: 't' :: 'w' :: 'a' :: 'r' :: 'e' :: '/' :: (path ++ '"' :: (rest ++ ['>', '<', '/', 'i', 'f', 'r', 'a', 'm', 'e', '>'])))
      = ' ' :: ("src=\"".data ++ (['h', 't', 't', 'p', 's', ':', '/', '/', 'a', 'p', 'p', '.', 'a', 'r', 'c', 'a', 'd', 'e', '.', 's', 'o', 'f', 't', 'w', 'a', 'r', 'e', '/']
          ++ (path ++ '"' :: (rest ++ ['>', '<', '/', 'i', 'f', 'r', 'a', 'm', 'e', '>'])))) from by simp]
    exact tryFromSrc_arcade hpne hpq hlt
  unfold Arcade.tryArcade
  simp only [h1.1, h1.2, h2]
  rw [if_pos (by decide : (!Js.isWordChar ' ') = true)]
  simp only [hk, hsrc]

theorem arcadeScan_true_match_any {cs ind url rest : List Char} (fuel : Nat)
    (hm : Arcade.tryArcade cs = some (ind, url, rest)) :
    Arcade.arcadeScan (fuel + 1) true cs
      = (ind ++ url ++ (Arcade.arcadeScan fuel false rest).1,
         (Arcade.arcadeScan fuel false rest).2 + 1) := by
  cases cs with
  | nil =>
    rw [show Arcade.tryArcade [] = none from rfl] at hm
    exact Option.noConfusion hm
  | cons c t => exact arcadeScan_true_match fuel hm

theorem arcadeScan_false_nil (fuel : Nat) :
    Arcade.arcadeScan fuel false [] = ([], 0) := by
  cases fuel <;> rfl

theorem arcade_processContent_eq {text t : List Char} {n : Nat}
    (h : Arcade.arcadeScan (text.length + 1) true text = (t, n)) :
    Arcade.processContent text
      = { text := t, changed := !(n == 0), replaced := n } := by
  unfold Arcade.processContent
  simp only [h]

/-- C8: the arcade transformer replaces a whole matched iframe line whose
src attribute is an https arcade url with just the bare url, preserving
the original leading indentation and counting one replacement.  `path` is
the url part after the host (non-empty, no whitespace or double quote, so
the regex captures exactly it), and `rest` is the attribute tail between
the closing quote and the final angle bracket (no stray case-insensitive
`src=` and no `<`, so the regex matches this iframe and ends at its
closing tag). -/
theorem claim_C8 :
    ∀ indent path rest : List Char,
      (∀ c ∈ indent, c = ' ' ∨ c = '\t') →
      path ≠ [] →
      (∀ c ∈ path, Js.isWS c = false ∧ c ≠ '"') →
      Js.containsSub (Images.lowerList rest) "src=".data = false →
      (∀ c ∈ rest, Js.lowerChar c ≠ '<') →
      Arcade.processContent (indent
          ++ "<iframe src=\"https://app.arcade.software/".data
          ++ (path ++ '"' :: (rest ++ "></iframe>".data)))
        = { text := indent ++ ("https://app.arcade.software/".data ++ path),
            changed := true, replaced := 1 } := by
  intro indent path rest hind hpne hpath hns hlt
  have hm := tryArcade_structured (ws_of_indent hind) hpne
      (fun c hc => (hpath c hc).1) (fun c hc => (hpath c hc).2) hns hlt
  have e1 : Arcade.arcadeScan ((indent
        ++ "<iframe src=\"https://app.arcade.software/".data
        ++ (path ++ '"' :: (rest ++ "></iframe>".data))).length + 1) true
        (indent ++ "<iframe src=\"https://app.arcade.software/".data
        ++ (path ++ '"' :: (rest ++ "></iframe>".data)))
      = (indent ++ ("https://app.arcade.software/".data ++ path), 1) := by
    rw [arcadeScan_true_match_any _ hm, arcadeScan_false_nil]
    simp
  rw [arcade_processContent_eq e1]
  rfl

/-- Witness for C8 at the spec's example url with two-space indentation
and trailing attributes. -/
theorem claim_C8_witness :
    Arcade.processContent ("  ".data
        ++ "<iframe src=\"https://app.arcade.software/".data
        ++ ("share/abc".data ++ '"'
            :: (" title=\"demo\" frameborder=\"0\"".data ++ "></iframe>".data)))
      = { text := "  ".data
            ++ ("https://app.arcade.software/".data ++ "share/abc".data),
          changed := true, replaced := 1 } :=
  claim_C8 "  ".data "share/abc".data " title=\"demo\" frameborder=\"0\"".data
    (by decide) (by decide) (by decide) (by decide) (by decide)

mutual

theorem collectEntry_shape (exts : List (List Char)) (path : List (List Char)) :
    ∀ (e : Collector.FSEntry) (p : List (List Char)),
      p ∈ Collector.collectEntry exts path e →
      ∃ q, q ≠ [] ∧ p = path ++ q ∧
        ∀ comp ∈ q, Collector.startsWithDot comp = false
  | .file name, p, hp => by
    unfold Collector.collectEntry at hp
    split at hp
    · simp at hp
    next hdot =>
      split at hp
      · simp at hp
        refine ⟨[name], by simp, hp, ?_⟩
        intro comp hcomp
        rw [List.mem_singleton.mp hcomp]
        simpa using hdot
      · simp at hp
  | .dir name children, p, hp => by
    unfold Collector.collectEntry at hp
    split at hp
    · simp at hp
    next hdot =>
      obtain ⟨q, hqne, hq, hqdot⟩ :=
        collectList_shape exts (path ++ [name]) children p hp
      refine ⟨name :: q, by simp, by simpa using hq, ?_⟩
      intro comp hcomp
      rcases List.mem_cons.mp hcomp with h | h
      · rw [h]; simpa using hdot
      · exact hqdot comp h

theorem collectList_shape (exts : List (List Char)) (path : List (List Char)) :
    ∀ (es : List Collector.FSEntry) (p : List (List Char)),
      p ∈ Collector.collectList exts path es →
      ∃ q, q ≠ [] ∧ p = path ++ q ∧
        ∀ comp ∈ q, Collector.startsWithDot comp = false
  | [], p, hp => by simp [Collector.collectList] at hp
  | e :: rest, p, hp => by
    unfold Collector.collectList at hp
    rcases List.mem_append.mp hp with h | h
    · exact collectEntry_shape exts path e p h
    · exact collectList_shape exts path rest p h

end

/-- C9: the file collector never returns a path containing a dot-prefixed
component below the traversal root: every collected path extends the root
path by components none of which starts with a dot (so no collected file
has a dot-prefixed name or lies under a dot-prefixed directory, whatever
its extension); moreover a dot-prefixed directory contributes nothing at
all, whatever its subtree, and likewise a dot-prefixed file. -/
theorem claim_C9 :
    ∀ (exts : List (List Char)) (path : List (List Char)),
      (∀ (es : List Collector.FSEntry) (p : List (List Char)),
        p ∈ Collector.collectList exts path es →
        ∀ comp ∈ p.drop path.length, Collector.startsWithDot comp = false)
      ∧ (∀ (name : List Char) (children : List Collector.FSEntry),
          Collector.startsWithDot name = true →
          Collector.collectEntry exts path
            (Collector.FSEntry.dir name children) = [])
      ∧ (∀ (name : List Char),
          Collector.startsWithDot name = true →
          Collector.collectEntry exts path
            (Collector.FSEntry.file name) = []) := by
  intro exts path
  refine ⟨?_, ?_, ?_⟩
  · intro es p hp comp hcomp
    obtain ⟨q, _, hq, hqdot⟩ := collectList_shape exts path es p hp
    subst hq
    rw [List.drop_left] at hcomp
    exact hqdot comp hcomp
  · intro name children hdot
    unfold Collector.collectEntry
    simp [hdot]
  · intro name hdot
    unfold Collector.collectEntry
    simp [hdot]

/-- Witness for C9: a `.git` directory containing `x.md` contributes
nothing, a dot-prefixed markdown file is skipped, and the path collected
from a clean tree has no dot-prefixed components. -/
theorem claim_C9_witness :
    Collector.collectEntry [".md".data] []
        (Collector.FSEntry.dir ".git".data [Collector.FSEntry.file "x.md".data]) = []
      ∧ Collector.collectEntry [".md".data] []
          (Collector.FSEntry.file ".hidden.md".data) = []
      ∧ (∀ comp ∈ (["docs".data, "a.md".data] : List (List Char)).drop 0,
          Collector.startsWithDot comp = false) :=
  ⟨(claim_C9 [".md".data] []).2.1 ".git".data
      [Collector.FSEntry.file "x.md".data] (by decide),
   (claim_C9 [".md".data] []).2.2 ".hidden.md".data (by decide),
   (claim_C9 [".md".data] []).1
      [Collector.FSEntry.dir "docs".data [Collector.FSEntry.file "a.md".data]]
      ["docs".data, "a.md".data] (by decide)⟩
